import Mathlib

/-!
Verification of the TransmissionCluster clustering engine
(`TransmissionCluster.py`): tree preparation (`prep`), the breadth-first
excision primitive (`cut`), the single-pass cluster extraction
(`min_clusters_threshold_max_clade`), the threshold search
(`argmax_clusters`) and the histogram-based distance-limit heuristic
(`gen_hist` / `get_dist_limit`).

Python floats (including the `float('inf')` / `float('-inf')` sentinels) are
embedded as the extended rationals `ExtQ`; exact rational arithmetic stands
in for IEEE doubles.  The input tree is embedded after the
`resolve_polytomies()` / `suppress_unifurcations()` normalisation, i.e. as a
strictly bifurcating rooted tree; an internal node's label is embedded as
`Option ℚ` (the result of the `float(str(node))` parse attempt, `none` when
the parse fails).  The mutable per-node side-car state (`DELETED`,
`left_dist`, `right_dist`, `edge_length`) is carried on the nodes of the
working tree `ATree`, and each mutating pass is embedded as a function
returning the updated tree.
-/

set_option maxRecDepth 8000

unseal Rat.add Rat.mul Rat.inv Rat.sub

/-- Extended rationals: finite values plus the two IEEE infinities used by
the source (`float('inf')` for forced-apart edges, `float('-inf')` for an
unconstrained support threshold). -/
inductive ExtQ where
  | ninf : ExtQ
  | fin : ℚ → ExtQ
  | inf : ExtQ
deriving DecidableEq, Repr

namespace ExtQ

/-- Addition of extended values.  The source never adds `-inf` to `+inf`
(edge lengths are finite or `+inf`; `-inf` only appears as a support
threshold, which is never added); the `ninf` clauses are an arbitrary
totalisation. -/
def add : ExtQ → ExtQ → ExtQ
  | .ninf, _ => .ninf
  | _, .ninf => .ninf
  | .inf, _ => .inf
  | _, .inf => .inf
  | .fin a, .fin b => .fin (a + b)

instance : Add ExtQ := ⟨ExtQ.add⟩

/-- Strict comparison, matching IEEE `<` on the values the source uses. -/
def blt : ExtQ → ExtQ → Bool
  | .ninf, .ninf => false
  | .ninf, _ => true
  | _, .ninf => false
  | .fin a, .fin b => decide (a < b)
  | .fin _, .inf => true
  | .inf, _ => false

/-- Python's `max`: returns the second argument only when it is strictly
greater. -/
def emax (a b : ExtQ) : ExtQ := if blt a b then b else a

/-- Test for the `-inf` sentinel. -/
def isNinf : ExtQ → Bool
  | .ninf => true
  | _ => false

theorem add_def (a b : ExtQ) : a + b = ExtQ.add a b := rfl

theorem isNinf_false_iff (a : ExtQ) : a.isNinf = false ↔ a ≠ .ninf := by
  cases a <;> simp [isNinf]

theorem add_isNinf (a b : ExtQ) (ha : a.isNinf = false) (hb : b.isNinf = false) :
    (a + b).isNinf = false := by
  cases a <;> cases b <;> simp_all [isNinf, add_def, add]

theorem emax_isNinf (a b : ExtQ) (ha : a.isNinf = false) (hb : b.isNinf = false) :
    (emax a b).isNinf = false := by
  unfold emax; split <;> assumption

theorem add_inf (a : ExtQ) (ha : a.isNinf = false) : a + .inf = .inf := by
  cases a <;> simp_all [isNinf, add_def, add]

theorem inf_add (b : ExtQ) (hb : b.isNinf = false) : ExtQ.inf + b = .inf := by
  cases b <;> simp_all [isNinf, add_def, add]

theorem blt_fin_inf (q : ℚ) : blt (.fin q) .inf = true := rfl

end ExtQ

/-- An input tree record, as it stands after the treeswift library's
`resolve_polytomies()` and `suppress_unifurcations()` normalisation:
strictly bifurcating.  A leaf carries its taxon label and optional branch
length; an internal node carries the optional parsed numeric value of its
label (`float(str(node))`, `none` on parse failure) and its optional branch
length. -/
inductive PhyloTree where
  | leaf (label : String) (edge : Option ℚ)
  | node (conf : Option ℚ) (edge : Option ℚ) (l r : PhyloTree)
deriving DecidableEq, Repr

namespace PhyloTree

/-- The leaf labels of the tree, left to right. -/
def leafList : PhyloTree → List String
  | .leaf lab _ => [lab]
  | .node _ _ l r => l.leafList ++ r.leafList

/-- The subtree reached by a path of child choices (`false` = first child,
`true` = second child). -/
def sub : PhyloTree → List Bool → Option PhyloTree
  | t, [] => some t
  | .leaf _ _, _ :: _ => none
  | .node _ _ l r, b :: p => if b then r.sub p else l.sub p

end PhyloTree

/-- A working tree node, carrying the mutable side-car state the source
stores on treeswift nodes: `edge` (the `edge_length` field, possibly the
`+inf` sentinel installed by `prep`), the `DELETED` flag, and the
`left_dist` / `right_dist` scratch values. -/
inductive ATree where
  | leaf (label : String) (edge : ExtQ) (deleted : Bool) (ld rd : ExtQ)
  | node (edge : ExtQ) (deleted : Bool) (ld rd : ExtQ) (l r : ATree)
deriving DecidableEq, Repr

namespace ATree

/-- The node's `DELETED` flag. -/
def del : ATree → Bool
  | .leaf _ _ d _ _ => d
  | .node _ d _ _ _ _ => d

/-- The node's `edge_length`. -/
def edge : ATree → ExtQ
  | .leaf _ e _ _ _ => e
  | .node e _ _ _ _ _ => e

/-- The node's `left_dist`. -/
def ld : ATree → ExtQ
  | .leaf _ _ _ a _ => a
  | .node _ _ a _ _ _ => a

/-- The node's `right_dist`. -/
def rd : ATree → ExtQ
  | .leaf _ _ _ _ b => b
  | .node _ _ _ b _ _ => b

/-- All leaf labels of the subtree. -/
def leaves : ATree → List String
  | .leaf lab _ _ _ _ => [lab]
  | .node _ _ _ _ l r => l.leaves ++ r.leaves

/-- The leaf labels reachable from the root through non-`DELETED` nodes:
exactly the labels a breadth-first `cut` started here would collect. -/
def reach : ATree → List String
  | .leaf lab _ d _ _ => if d then [] else [lab]
  | .node _ d _ _ l r => if d then [] else l.reach ++ r.reach

/-- Node count, used as the termination measure of the excision queue. -/
def size : ATree → ℕ
  | .leaf _ _ _ _ _ => 1
  | .node _ _ _ _ l r => l.size + r.size + 1

/-- Every `DELETED` flag is `false` (the state `prep` establishes). -/
def allFree : ATree → Bool
  | .leaf _ _ d _ _ => !d
  | .node _ d _ _ l r => !d && (l.allFree && r.allFree)

/-- Every `DELETED` flag is `true`. -/
def allDel : ATree → Bool
  | .leaf _ _ d _ _ => d
  | .node _ d _ _ l r => d && (l.allDel && r.allDel)

/-- Deletion is downward closed: a `DELETED` node has a fully `DELETED`
subtree. -/
def downClosed : ATree → Bool
  | .leaf _ _ _ _ _ => true
  | .node _ d _ _ l r => (!d || (l.allDel && r.allDel)) && (l.downClosed && r.downClosed)

/-- No `edge_length` holds the `-inf` sentinel (true of every tree `prep`
produces). -/
def edgesOK : ATree → Bool
  | .leaf _ e _ _ _ => !e.isNinf
  | .node e _ _ _ l r => !e.isNinf && (l.edgesOK && r.edgesOK)

/-- Pointwise ordering of the `DELETED` flags of two same-shaped trees:
the second tree has every flag the first has ("never reset to false"). -/
def delLE : ATree → ATree → Bool
  | .leaf _ _ d _ _, .leaf _ _ e _ _ => !d || e
  | .node _ d _ _ l r, .node _ e _ _ l2 r2 => (!d || e) && (l.delLE l2 && r.delLE r2)
  | _, _ => false

theorem size_pos (t : ATree) : 0 < t.size := by
  cases t <;> simp [size]

end ATree

/-- Sum of sizes of a worklist of subtrees (termination measure of the
breadth-first excision queue). -/
def sizeQ (q : List ATree) : ℕ := (q.map ATree.size).sum

/-- One dequeue step of the breadth-first excision queue, with a structural
fuel argument (each dequeue consumes one unit; `sizeQ` of the initial queue
is enough fuel, since every tree node is enqueued at most once). -/
def cutCollectAux : ℕ → List ATree → List String
  | _, [] => []
  | 0, _ :: _ => []
  | fuel + 1, t :: q =>
    if t.del then cutCollectAux fuel q
    else
      match t with
      | .leaf lab _ _ _ _ => lab :: cutCollectAux fuel q
      | .node _ _ _ _ l r => cutCollectAux fuel (q ++ [l, r])

/-- The leaf-collecting half of `cut`: the breadth-first traversal of the
source (a FIFO queue seeded with the start node; already-`DELETED` nodes are
skipped and not expanded; leaf labels are appended in dequeue order). -/
def cutCollect (q : List ATree) : List String := cutCollectAux (sizeQ q) q

/-- The state-mutating half of `cut`: every node reachable through
non-`DELETED` nodes gets `DELETED := true` and its `edge_length`,
`left_dist` and `right_dist` zeroed; an already-`DELETED` node is skipped,
so nothing below it is touched (exactly the nodes the breadth-first queue
would visit). -/
def cutMark (t : ATree) : ATree :=
  if t.del then t
  else
    match t with
    | .leaf lab _ _ _ _ => .leaf lab (.fin 0) true (.fin 0) (.fin 0)
    | .node _ _ _ _ l r => .node (.fin 0) true (.fin 0) (.fin 0) (cutMark l) (cutMark r)

/-- `cut(node)` of the source: returns the collected leaf-label cluster and
the mutated subtree. -/
def cut (t : ATree) : List String × ATree := (cutCollect [t], cutMark t)

/-- `prep(tree, support)`: initialise `DELETED := False`, default missing
branch lengths to 0, parse internal-node confidence (default 100 on parse
failure) and replace the branch length of a low-support internal node by
`+inf`; return the prepared tree together with the leaf labels collected in
postorder (the source accumulates them into a Python `set`; the claims below
only use its membership). -/
def prep (support : ExtQ) : PhyloTree → ATree × List String
  | .leaf lab e => (.leaf lab (.fin (e.getD 0)) false (.fin 0) (.fin 0), [lab])
  | .node conf e l r =>
    let pl := prep support l
    let pr := prep support r
    let c : ℚ := conf.getD 100
    let el : ExtQ := if ExtQ.blt (.fin c) support then .inf else .fin (e.getD 0)
    (.node el false (.fin 0) (.fin 0) pl.1 pr.1, pl.2 ++ pr.2)

/-- The postorder traversal body of `min_clusters_threshold_max_clade`:
children first, then the node itself; a `DELETED` node is skipped; an
internal node with both children `DELETED` is excised as a dead stub (its
empty cluster is discarded); otherwise the node's `left_dist`/`right_dist`
are recomputed from the children and, when their sum exceeds the threshold,
both children's subtrees are cut and each non-empty cluster is emitted (left
cluster first, as in the source). -/
def extract (threshold : ℚ) : ATree → ATree × List (List String)
  | .leaf lab e d ld rd =>
    if d then (.leaf lab e d ld rd, [])
    else (.leaf lab e d (.fin 0) (.fin 0), [])
  | .node e d ld rd l r =>
    let pl := extract threshold l
    let pr := extract threshold r
    if d then (.node e d ld rd pl.1 pr.1, pl.2 ++ pr.2)
    else if pl.1.del && pr.1.del then
      ((cut (.node e d ld rd pl.1 pr.1)).2, pl.2 ++ pr.2)
    else
      let nld := if pl.1.del then ExtQ.fin 0 else ExtQ.emax pl.1.ld pl.1.rd + pl.1.edge
      let nrd := if pr.1.del then ExtQ.fin 0 else ExtQ.emax pr.1.ld pr.1.rd + pr.1.edge
      if ExtQ.blt (.fin threshold) (nld + nrd) then
        let c0 := (cut pl.1).1
        let c1 := (cut pr.1).1
        (.node e d (.fin 0) (.fin 0) (cut pl.1).2 (cut pr.1).2,
          pl.2 ++ pr.2 ++ ((if c0.isEmpty then [] else [c0]) ++ (if c1.isEmpty then [] else [c1])))
      else
        (.node e d nld nrd pl.1 pr.1, pl.2 ++ pr.2)

/-- `min_clusters_threshold_max_clade(tree, threshold, support)`: prepare
the tree, run the postorder pass, and append the still-unclustered leaves as
one trailing cluster when non-empty.  The source removes each emitted
cluster's leaves from the `leaves` set as it goes; the same removals are
performed here at the end (`List.erase` models `set.remove` on the distinct
labels the claims assume). -/
def min_clusters_threshold_max_clade (tree : PhyloTree) (threshold : ℚ) (support : ExtQ) :
    List (List String) :=
  let p := prep support tree
  let e := extract threshold p.1
  let remaining := e.2.foldl (fun acc c => c.foldl (fun a x => a.erase x) acc) p.2
  if remaining.isEmpty then e.2 else e.2 ++ [remaining]

/-- `NUM_THRESH` of the source. -/
def NUM_THRESH : ℕ := 1000

/-- `len([c for c in clusters if len(c) > 1])`. -/
def countNonSingleton (cs : List (List String)) : ℕ :=
  (cs.filter (fun c => decide (1 < c.length))).length

/-- Python 3 `round` to an integer: round half to even. -/
def roundHalfEven (q : ℚ) : ℤ :=
  let n := Int.floor q
  let r := q - n
  if r < 1/2 then n else if 1/2 < r then n + 1 else if 2 ∣ n then n else n + 1

/-- `round(t, 3)` of the source: round half to even at the third decimal. -/
def round3 (q : ℚ) : ℚ := (roundHalfEven (q * 1000) : ℚ) / 1000

/-- The candidate grid `[i*threshold/NUM_THRESH for i in range(NUM_THRESH+1)]`. -/
def thresholdGrid (threshold : ℚ) : List ℚ :=
  (List.range (NUM_THRESH + 1)).map (fun i : ℕ => (i : ℚ) * threshold / (NUM_THRESH : ℚ))

/-- The per-candidate objective of the scan: non-singleton cluster count of
a run with the unconstrained support sentinel `float('-inf')`
(`supportTemp`). -/
def nonSingletonCount (tree : PhyloTree) (t : ℚ) : ℕ :=
  countNonSingleton (min_clusters_threshold_max_clade tree t .ninf)

/-- One iteration of the scan loop: the stored best `(best_num, raw_t,
best_t)` is replaced only when the candidate's count is strictly greater
(`num_non_singleton > best_num`); the replacement stores the raw candidate
and its 3-decimal rounding (`best_t = float(round(t, 3))`). -/
def scanStep (f : ℚ → ℕ) (acc : ℤ × ℚ × ℚ) (t : ℚ) : ℤ × ℚ × ℚ :=
  if acc.1 < (f t : ℤ) then ((f t : ℤ), t, round3 t) else acc

/-- `argmax_clusters(method, tree, threshold, support, display_fig)` with
`method = min_clusters_threshold_max_clade` (the only instantiation in the
source) and the plotting/progress side effects dropped: scan the candidate
grid starting from `best_num = -1`, `best_t = -1`, then run once more at the
stored `best_t` with the caller's real support threshold and return that
run's clusters (each scan run gets its own deep copy of the tree; copies
are implicit in this functional embedding). -/
def argmax_clusters (tree : PhyloTree) (threshold : ℚ) (support : ExtQ) : List (List String) :=
  let best := (thresholdGrid threshold).foldl (scanStep (nonSingletonCount tree)) (-1, -1, -1)
  min_clusters_threshold_max_clade tree best.2.2 support

/-- `statistics.mean`, `none` on the empty list (where the Python raises
`StatisticsError`). -/
def mean (xs : List ℚ) : Option ℚ :=
  if xs.isEmpty then none else some (xs.sum / (xs.length : ℚ))

/-- `int(math.ceil(math.sqrt n))`, exactly: the least `k` with `n ≤ k * k`
(the fallback of `getD` is never used, since `k = n + 1` always satisfies
the predicate). -/
def ceilSqrt (n : ℕ) : ℕ :=
  ((List.range (n + 2)).find? (fun k => decide (n ≤ k * k))).getD (n + 1)

/-- `int(math.ceil(math.sqrt(len(pw_dists)) / 10.0)) * 10` of `gen_hist`,
in exact arithmetic. -/
def bin_size (n : ℕ) : ℕ := ((ceilSqrt n + 9) / 10) * 10

/-- Largest element of a distance collection (0 for the empty list, which
`gen_hist` never produces for a tree with ≥ 2 leaves). -/
def maxDist : List ℚ → ℚ
  | [] => 0
  | d :: ds => ds.foldl max d

/-- Smallest element of a distance collection. -/
def minDist : List ℚ → ℚ
  | [] => 0
  | d :: ds => ds.foldl min d

/-- Modelled from the spec: the histogram construction of `gen_hist` is
delegated by the source to the external `matplotlib.pyplot.hist`, whose code
is not part of this repository.  Following the spec: `B = bin_size N`
equal-width bins over the sample range, counts per bin (each bin closed on
the left, the last bin also closed on the right at the maximum), edge list
`min + k*(max-min)/B` for `k = 0..B`.  Returns `(histarray, binsarray)`. -/
def gen_hist (dists : List ℚ) : List ℚ × List ℚ :=
  match dists with
  | [] => ([], [])
  | d :: ds =>
    let mn := minDist (d :: ds)
    let mx := maxDist (d :: ds)
    let B := bin_size (d :: ds).length
    let w := (mx - mn) / (B : ℚ)
    let counts := (List.range B).map (fun k : ℕ =>
      (((d :: ds).filter (fun x =>
        decide (mn + (k : ℚ) * w ≤ x) &&
          (if k + 1 = B then decide (x ≤ mx) else decide (x < mn + ((k : ℚ) + 1) * w)))).length : ℚ))
    let edges := (List.range (B + 1)).map (fun k : ℕ => mn + (k : ℚ) * w)
    (counts, edges)

/-- The `maxarray` accumulated by `get_dist_limit`: for each `i` in
`range(5, len(histarray))`, when the mean of the trailing window
`histarray[i-5:i]` falls strictly below the baseline mean, record
`binsarray[i]`.  An out-of-range `binsarray[i]` (impossible on `gen_hist`
output, where `len(binsarray) = len(histarray) + 1`) contributes nothing. -/
def maxarrayOf (histarray binsarray : List ℚ) (meanff : ℚ) : List ℚ :=
  ((List.range histarray.length).filter (fun i => decide (5 ≤ i))).filterMap
    (fun i =>
      match mean ((histarray.drop (i - 5)).take 5) with
      | none => none
      | some m => if m < meanff then binsarray.get? i else none)

/-- `get_dist_limit(hist_plot)`: baseline mean of the first five bin counts,
qualifying-bin scan, then `round(float(maxarray[1]), 3)`.  The source leaves
the `maxarray[1]` access unguarded (an `IndexError` when fewer than two bins
qualify); the fallible accesses are rendered as `Option`, so that
configuration yields `none` instead of a value. -/
def get_dist_limit (histarray binsarray : List ℚ) : Option ℚ :=
  match mean (histarray.take 5) with
  | none => none
  | some meanff => ((maxarrayOf histarray binsarray meanff).get? 1).map round3

/-! ### Basic facts about `reach`, `cutCollect`, `cutMark` and `prep` -/

namespace ATree

theorem reach_del (t : ATree) (h : t.del = true) : t.reach = [] := by
  cases t <;> simp_all [del, reach]

theorem reach_subset_leaves (t : ATree) : ∀ x ∈ t.reach, x ∈ t.leaves := by
  induction t with
  | leaf lab e d a b => intro x hx; cases d <;> simp_all [reach, leaves]
  | node e d a b l r ihl ihr =>
    intro x hx
    cases d <;> simp_all [reach, leaves]
    rcases hx with h | h
    · exact Or.inl (ihl x h)
    · exact Or.inr (ihr x h)

theorem allFree_reach (t : ATree) (h : t.allFree = true) : t.reach = t.leaves := by
  induction t with
  | leaf lab e d a b => simp_all [allFree, reach, leaves]
  | node e d a b l r ihl ihr => simp_all [allFree, reach, leaves]

end ATree

theorem sizeQ_cons (t : ATree) (q : List ATree) : sizeQ (t :: q) = t.size + sizeQ q := by
  simp [sizeQ]

theorem cutCollectAux_perm (fuel : ℕ) : ∀ q : List ATree, sizeQ q ≤ fuel →
    (cutCollectAux fuel q).Perm (q.map ATree.reach).flatten := by
  induction fuel with
  | zero =>
    intro q hq
    cases q with
    | nil => simp [cutCollectAux]
    | cons t q =>
      exfalso
      have := ATree.size_pos t
      rw [sizeQ_cons] at hq
      omega
  | succ fuel ih =>
    intro q hq
    cases q with
    | nil => simp [cutCollectAux]
    | cons t q =>
      rw [sizeQ_cons] at hq
      have hpos := ATree.size_pos t
      simp only [cutCollectAux]
      by_cases hd : t.del
      · simp only [hd, if_true]
        have h1 : (cutCollectAux fuel q).Perm (q.map ATree.reach).flatten :=
          ih q (by omega)
        simpa [ATree.reach_del t hd] using h1
      · simp only [hd, if_false]
        cases t with
        | leaf lab e d a b =>
          have hd2 : d = false := by simpa [ATree.del] using hd
          have h1 : (cutCollectAux fuel q).Perm (q.map ATree.reach).flatten :=
            ih q (by omega)
          simpa [ATree.reach, hd2] using h1.cons lab
        | node e d a b l r =>
          have hd2 : d = false := by simpa [ATree.del] using hd
          have hsz : sizeQ (q ++ [l, r]) ≤ fuel := by
            simp only [sizeQ, List.map_append, List.sum_append, List.map_cons, List.sum_cons,
              List.map_nil, List.sum_nil] at hq ⊢
            simp only [ATree.size] at hq
            omega
          have h1 := ih (q ++ [l, r]) hsz
          simp only [List.map_append, List.flatten_append, List.map_cons, List.map_nil,
            List.flatten_cons, List.flatten_nil, List.append_nil] at h1
          refine h1.trans ?_
          have h2 := @List.perm_append_comm _ ((List.map ATree.reach q).flatten) (l.reach ++ r.reach)
          simpa [ATree.reach, hd2, List.append_assoc] using h2

theorem cutCollect_perm (t : ATree) : (cutCollect [t]).Perm t.reach := by
  have h := cutCollectAux_perm (sizeQ [t]) [t] le_rfl
  simpa [cutCollect] using h

theorem cutMark_reach (t : ATree) : (cutMark t).reach = [] := by
  cases t with
  | leaf lab e d a b => cases d <;> simp [cutMark, ATree.del, ATree.reach]
  | node e d a b l r => cases d <;> simp [cutMark, ATree.del, ATree.reach]

theorem cutMark_leaves (t : ATree) : (cutMark t).leaves = t.leaves := by
  induction t with
  | leaf lab e d a b => cases d <;> simp [cutMark, ATree.del, ATree.leaves]
  | node e d a b l r ihl ihr => cases d <;> simp_all [cutMark, ATree.del, ATree.leaves]

theorem cutMark_edgesOK (t : ATree) (h : t.edgesOK = true) : (cutMark t).edgesOK = true := by
  induction t with
  | leaf lab e d a b => cases d <;> simp_all [cutMark, ATree.del, ATree.edgesOK, ExtQ.isNinf]
  | node e d a b l r ihl ihr =>
    cases d <;> simp_all [cutMark, ATree.del, ATree.edgesOK, ExtQ.isNinf]

theorem ATree.edgesOK_edge (t : ATree) (h : t.edgesOK = true) : t.edge.isNinf = false := by
  cases t <;> simp_all [ATree.edgesOK, ATree.edge]

theorem flatten_if_isEmpty (c : List String) :
    (if c.isEmpty then ([] : List (List String)) else [c]).flatten = c := by
  by_cases h : c.isEmpty = true
  · have : c = [] := by simpa using h
    simp [h, this]
  · simp [h]

theorem perm_swap_mid {α : Type} (a b c d : List α) :
    (a ++ (b ++ (c ++ d))).Perm (a ++ (c ++ (b ++ d))) :=
  (List.perm_append_comm_assoc b c d).append_left a

theorem prep_spec (s : ExtQ) : ∀ tr : PhyloTree,
    ((prep s tr).1).allFree = true ∧ ((prep s tr).1).edgesOK = true ∧
    ((prep s tr).1).leaves = tr.leafList ∧ (prep s tr).2 = tr.leafList := by
  intro tr
  induction tr with
  | leaf lab e =>
    simp [prep, ATree.allFree, ATree.edgesOK, ATree.leaves, PhyloTree.leafList, ExtQ.isNinf]
  | node conf e l r ihl ihr =>
    obtain ⟨h1, h2, h3, h4⟩ := ihl
    obtain ⟨h5, h6, h7, h8⟩ := ihr
    refine ⟨?_, ?_, ?_, ?_⟩
    · simp [prep, ATree.allFree, h1, h5]
    · have hsplit : (if ExtQ.blt (.fin (conf.getD 100)) s then ExtQ.inf
          else ExtQ.fin (e.getD 0)).isNinf = false := by
        split <;> simp [ExtQ.isNinf]
      simp [prep, ATree.edgesOK, h2, h6, hsplit]
    · simp [prep, ATree.leaves, PhyloTree.leafList, h3, h7]
    · simp [prep, PhyloTree.leafList, h4, h8]

theorem mem_if_isEmpty (c x : List String)
    (h : x ∈ (if c.isEmpty then ([] : List (List String)) else [c])) : x ≠ [] := by
  by_cases hc : c.isEmpty = true
  · simp [hc] at h
  · have hne : c ≠ [] := by
      cases c
      · simp at hc
      · simp
    simp [hc] at h
    simpa [h] using hne

theorem extract_spec (th : ℚ) : ∀ t : ATree, t.allFree = true → t.edgesOK = true →
    ((extract th t).1.del = false) ∧
    ((extract th t).1.leaves = t.leaves) ∧
    ((extract th t).1.edge = t.edge) ∧
    ((extract th t).1.ld.isNinf = false) ∧
    ((extract th t).1.rd.isNinf = false) ∧
    ((extract th t).1.edgesOK = true) ∧
    (((extract th t).2.flatten ++ (extract th t).1.reach).Perm t.leaves) ∧
    (∀ c ∈ (extract th t).2, c ≠ []) := by
  intro t
  induction t with
  | leaf lab e d a b =>
    intro hf he
    have hd : d = false := by simpa [ATree.allFree] using hf
    subst hd
    refine ⟨rfl, rfl, rfl, rfl, rfl, he, ?_, by simp [extract]⟩
    simp [extract, ATree.reach, ATree.leaves]
  | node e d a b l r ihl ihr =>
    intro hf he
    have hd : d = false := by
      cases d
      · rfl
      · simp [ATree.allFree] at hf
    subst hd
    have hfl : l.allFree = true := by
      simp [ATree.allFree, Bool.and_eq_true] at hf; exact hf.1
    have hfr : r.allFree = true := by
      simp [ATree.allFree, Bool.and_eq_true] at hf; exact hf.2
    have hee : e.isNinf = false := by
      simp [ATree.edgesOK, Bool.and_eq_true] at he; exact he.1
    have hel : l.edgesOK = true := by
      simp [ATree.edgesOK, Bool.and_eq_true] at he; exact he.2.1
    have her : r.edgesOK = true := by
      simp [ATree.edgesOK, Bool.and_eq_true] at he; exact he.2.2
    obtain ⟨d1, d2, d3, d4, d5, d6, d7, d8⟩ := ihl hfl hel
    obtain ⟨e1, e2, e3, e4, e5, e6, e7, e8⟩ := ihr hfr her
    by_cases hcut : ExtQ.blt (.fin th)
        ((ExtQ.emax (extract th l).1.ld (extract th l).1.rd + (extract th l).1.edge) +
          (ExtQ.emax (extract th r).1.ld (extract th r).1.rd + (extract th r).1.edge)) = true
    · have hext : extract th (ATree.node e false a b l r) =
          (ATree.node e false (.fin 0) (.fin 0) (cutMark (extract th l).1)
              (cutMark (extract th r).1),
            (extract th l).2 ++ (extract th r).2 ++
              ((if (cutCollect [(extract th l).1]).isEmpty then []
                  else [cutCollect [(extract th l).1]]) ++
                (if (cutCollect [(extract th r).1]).isEmpty then []
                  else [cutCollect [(extract th r).1]]))) := by
        simp [extract, d1, e1, hcut, cut]
      rw [hext]
      refine ⟨rfl, ?_, rfl, rfl, rfl, ?_, ?_, ?_⟩
      · simp [ATree.leaves, cutMark_leaves, d2, e2]
      · simp [ATree.edgesOK, hee, cutMark_edgesOK _ d6, cutMark_edgesOK _ e6]
      · have hc0 := cutCollect_perm (extract th l).1
        have hc1 := cutCollect_perm (extract th r).1
        have s1 := perm_swap_mid (extract th l).2.flatten (extract th r).2.flatten
          (cutCollect [(extract th l).1]) (cutCollect [(extract th r).1])
        have s2 := (hc0.append (((extract th r).2.flatten).perm_append_left_iff.mpr hc1)).append_left
          (extract th l).2.flatten
        have s3 : (((extract th l).2.flatten ++ (extract th l).1.reach) ++
            ((extract th r).2.flatten ++ (extract th r).1.reach)).Perm (l.leaves ++ r.leaves) :=
          d7.append e7
        simp only [ATree.leaves, ATree.reach, cutMark_reach, List.flatten_append,
          flatten_if_isEmpty, List.flatten_cons, List.flatten_nil, List.append_nil,
          List.append_assoc, if_false, Bool.false_eq_true, ite_false]
        refine s1.trans (s2.trans ?_)
        simpa [List.append_assoc] using s3
      · intro c hc
        simp only [List.mem_append] at hc
        rcases hc with (hc | hc) | hc | hc
        · exact d8 c hc
        · exact e8 c hc
        · exact mem_if_isEmpty _ c hc
        · exact mem_if_isEmpty _ c hc
    · have hext : extract th (ATree.node e false a b l r) =
          (ATree.node e false
              (ExtQ.emax (extract th l).1.ld (extract th l).1.rd + (extract th l).1.edge)
              (ExtQ.emax (extract th r).1.ld (extract th r).1.rd + (extract th r).1.edge)
              (extract th l).1 (extract th r).1,
            (extract th l).2 ++ (extract th r).2) := by
        simp [extract, d1, e1, hcut]
      rw [hext]
      refine ⟨rfl, ?_, rfl, ?_, ?_, ?_, ?_, ?_⟩
      · simp [ATree.leaves, d2, e2]
      · exact ExtQ.add_isNinf _ _ (ExtQ.emax_isNinf _ _ d4 d5) (ATree.edgesOK_edge _ d6)
      · exact ExtQ.add_isNinf _ _ (ExtQ.emax_isNinf _ _ e4 e5) (ATree.edgesOK_edge _ e6)
      · simp [ATree.edgesOK, hee, d6, e6]
      · have s1 := perm_swap_mid (extract th l).2.flatten (extract th r).2.flatten
          (extract th l).1.reach (extract th r).1.reach
        have s3 : (((extract th l).2.flatten ++ (extract th l).1.reach) ++
            ((extract th r).2.flatten ++ (extract th r).1.reach)).Perm (l.leaves ++ r.leaves) :=
          d7.append e7
        simp only [ATree.leaves, ATree.reach, List.flatten_append, List.append_assoc,
          if_false, Bool.false_eq_true, ite_false]
        refine s1.trans ?_
        simpa [List.append_assoc] using s3
      · intro c hc
        simp only [List.mem_append] at hc
        rcases hc with hc | hc
        · exact d8 c hc
        · exact e8 c hc

theorem foldl_erase_flatten (cs : List (List String)) (L : List String) :
    cs.foldl (fun acc c => c.foldl (fun a x => a.erase x) acc) L =
      cs.flatten.foldl (fun a x => a.erase x) L := by
  induction cs generalizing L with
  | nil => rfl
  | cons c cs ih => simp [List.flatten_cons, List.foldl_append, ih]

theorem foldl_erase_perm : ∀ (a L R : List String), (a ++ R).Perm L →
    (a.foldl (fun x y => x.erase y) L).Perm R := by
  intro a
  induction a with
  | nil =>
    intro L R h
    simpa using h.symm
  | cons x a ih =>
    intro L R h
    have h2 : (a ++ R).Perm (L.erase x) := by
      have h4 : ((x :: (a ++ R)).erase x).Perm (L.erase x) := h.erase x
      simpa [List.erase_cons_head] using h4
    simpa using ih (L.erase x) R h2

theorem min_clusters_flatten_perm (tr : PhyloTree) (t : ℚ) (s : ExtQ) :
    ((min_clusters_threshold_max_clade tr t s).flatten).Perm tr.leafList ∧
    (∀ c ∈ min_clusters_threshold_max_clade tr t s, c ≠ []) := by
  obtain ⟨hp1, hp2, hp3, hp4⟩ := prep_spec s tr
  obtain ⟨x1, x2, x3, x4, x5, x6, x7, x8⟩ := extract_spec t (prep s tr).1 hp1 hp2
  have hflat : (extract t (prep s tr).1).2.foldl
        (fun acc c => c.foldl (fun a x => a.erase x) acc) (prep s tr).2 =
      (extract t (prep s tr).1).2.flatten.foldl (fun a x => a.erase x) (prep s tr).2 :=
    foldl_erase_flatten _ _
  have hx7 : ((extract t (prep s tr).1).2.flatten ++
      (extract t (prep s tr).1).1.reach).Perm (prep s tr).2 := by
    rw [hp4, ← hp3]; exact x7
  have hremperm : ((extract t (prep s tr).1).2.foldl
        (fun acc c => c.foldl (fun a x => a.erase x) acc) (prep s tr).2).Perm
      ((extract t (prep s tr).1).1.reach) := by
    rw [hflat]
    exact foldl_erase_perm _ _ _ hx7
  have hmc : min_clusters_threshold_max_clade tr t s =
      (if ((extract t (prep s tr).1).2.foldl
            (fun acc c => c.foldl (fun a x => a.erase x) acc) (prep s tr).2).isEmpty then
        (extract t (prep s tr).1).2
      else (extract t (prep s tr).1).2 ++
        [(extract t (prep s tr).1).2.foldl
          (fun acc c => c.foldl (fun a x => a.erase x) acc) (prep s tr).2]) := rfl
  by_cases hre : ((extract t (prep s tr).1).2.foldl
      (fun acc c => c.foldl (fun a x => a.erase x) acc) (prep s tr).2).isEmpty = true
  · have hrnil : ((extract t (prep s tr).1).2.foldl
        (fun acc c => c.foldl (fun a x => a.erase x) acc) (prep s tr).2) = [] := by
      simpa using hre
    have hreach : (extract t (prep s tr).1).1.reach = [] := by
      have := hremperm.symm
      rw [hrnil] at this
      exact this.eq_nil
    rw [hmc, if_pos hre]
    constructor
    · have := x7
      rw [hreach, List.append_nil, hp3] at this
      exact this
    · exact x8
  · rw [hmc, if_neg hre]
    constructor
    · have h1 : ((extract t (prep s tr).1).2 ++
          [(extract t (prep s tr).1).2.foldl
            (fun acc c => c.foldl (fun a x => a.erase x) acc) (prep s tr).2]).flatten =
          (extract t (prep s tr).1).2.flatten ++
            (extract t (prep s tr).1).2.foldl
              (fun acc c => c.foldl (fun a x => a.erase x) acc) (prep s tr).2 := by
        simp
      rw [h1]
      have h2 := hremperm.append_left ((extract t (prep s tr).1).2.flatten)
      refine h2.trans ?_
      rw [← hp3]
      exact x7
    · intro c hc
      rcases List.mem_append.mp hc with hcc | hcc
      · exact x8 c hcc
      · have hcr : c = (extract t (prep s tr).1).2.foldl
            (fun acc c => c.foldl (fun a x => a.erase x) acc) (prep s tr).2 := by
          simpa using hcc
        subst hcr
        intro hnil
        rw [hnil] at hre
        simp at hre

/-- Claim C1 (partition law): for every prepared tree with distinct leaf
labels, every distance threshold `t ≥ 0` and every support threshold `s`,
the clusters returned by `min_clusters_threshold_max_clade` are non-empty,
their concatenation is a permutation of the tree's leaf-label list (every
leaf appears in exactly one cluster, no duplicates, no omissions), and they
are pairwise disjoint. -/
theorem C1_partition_law (tr : PhyloTree) (t : ℚ) (s : ExtQ) (ht : 0 ≤ t)
    (hnd : tr.leafList.Nodup) :
    (∀ c ∈ min_clusters_threshold_max_clade tr t s, c ≠ []) ∧
    ((min_clusters_threshold_max_clade tr t s).flatten).Perm tr.leafList ∧
    List.Pairwise List.Disjoint (min_clusters_threshold_max_clade tr t s) := by
  obtain ⟨hperm, hne⟩ := min_clusters_flatten_perm tr t s
  refine ⟨hne, hperm, ?_⟩
  have hnodup : (min_clusters_threshold_max_clade tr t s).flatten.Nodup :=
    hperm.nodup_iff.mpr hnd
  exact (List.nodup_flatten.mp hnodup).2

/-- The tree of Scenario A: `((A:1,B:1):1,(C:3,D:3):1);` (internal nodes
unlabelled, so their confidence parse fails and defaults to 100; the root
has no branch length, defaulted to 0 by `prep`). -/
def treeA : PhyloTree := .node none none
  (.node none (some 1) (.leaf "A" (some 1)) (.leaf "B" (some 1)))
  (.node none (some 1) (.leaf "C" (some 3)) (.leaf "D" (some 3)))

/-- Claim C5 (Scenario A): on `((A:1,B:1):1,(C:3,D:3):1);` with distance
threshold `t = 2` and unconstrained support (`-inf`), the extraction
returns exactly the three clusters `{C}`, `{D}`, `{A,B}`. -/
theorem C5_scenario_a :
    min_clusters_threshold_max_clade treeA 2 .ninf = [["C"], ["D"], ["A", "B"]] := by
  decide

theorem ATree.allDel_del (t : ATree) (h : t.allDel = true) : t.del = true := by
  cases t <;> simp_all [ATree.allDel, ATree.del]

/-- Claim C6 (idempotent excision): `cut` on a node whose entire subtree is
already `DELETED` returns an empty leaf list and leaves every node field
unchanged. -/
theorem C6_idempotent_cut (t : ATree) (h : t.allDel = true) :
    (cut t).1 = [] ∧ (cut t).2 = t := by
  have hd : t.del = true := ATree.allDel_del t h
  constructor
  · show cutCollect [t] = []
    obtain ⟨n, hn⟩ : ∃ n, sizeQ [t] = n + 1 := by
      have := ATree.size_pos t
      refine ⟨sizeQ [t] - 1, ?_⟩
      simp only [sizeQ, List.map_cons, List.map_nil, List.sum_cons, List.sum_nil]
      omega
    rw [cutCollect, hn]
    simp [cutCollectAux, hd]
  · show cutMark t = t
    cases t with
    | leaf lab e d a b => simp_all [cutMark, ATree.del]
    | node e d a b l r => simp_all [cutMark, ATree.del]

/-- Witness for C6 at a concrete fully deleted subtree. -/
theorem C6_witness :
    (ATree.leaf "X" (.fin 0) true (.fin 0) (.fin 0)).allDel = true ∧
    (cut (ATree.leaf "X" (.fin 0) true (.fin 0) (.fin 0))).1 = [] ∧
    (cut (ATree.leaf "X" (.fin 0) true (.fin 0) (.fin 0))).2 =
      ATree.leaf "X" (.fin 0) true (.fin 0) (.fin 0) :=
  ⟨by decide, C6_idempotent_cut _ (by decide)⟩

/-- Witness for C1 at Scenario A's tree with `t = 2`, unconstrained support. -/
theorem C1_witness :
    ((0 : ℚ) ≤ 2) ∧ treeA.leafList.Nodup ∧
    ((∀ c ∈ min_clusters_threshold_max_clade treeA 2 .ninf, c ≠ []) ∧
      ((min_clusters_threshold_max_clade treeA 2 .ninf).flatten).Perm treeA.leafList ∧
      List.Pairwise List.Disjoint (min_clusters_threshold_max_clade treeA 2 .ninf)) :=
  ⟨by norm_num, by decide, C1_partition_law treeA 2 .ninf (by norm_num) (by decide)⟩

namespace ATree

/-- The subtree of a working tree reached by a path of child choices. -/
def sub : ATree → List Bool → Option ATree
  | t, [] => some t
  | .leaf _ _ _ _ _, _ :: _ => none
  | .node _ _ _ _ l r, b :: p => if b then r.sub p else l.sub p

theorem sub_leaves : ∀ (p : List Bool) (t c : ATree), t.sub p = some c →
    ∀ x ∈ c.leaves, x ∈ t.leaves := by
  intro p
  induction p with
  | nil =>
    intro t c h x hx
    have hct : t = c := by simpa [sub] using h
    subst hct
    exact hx
  | cons b p ih =>
    intro t c h x hx
    cases t with
    | leaf lab e d u v => simp [sub] at h
    | node e d u v l r =>
      cases b
      · have h2 : l.sub p = some c := by simpa [sub] using h
        exact List.mem_append.mpr (Or.inl (ih l c h2 x hx))
      · have h2 : r.sub p = some c := by simpa [sub] using h
        exact List.mem_append.mpr (Or.inr (ih r c h2 x hx))

end ATree

theorem clusters_sub_leaves (th : ℚ) (t : ATree) (hf : t.allFree = true)
    (he : t.edgesOK = true) :
    (∀ cl ∈ (extract th t).2, ∀ x ∈ cl, x ∈ t.leaves) ∧
    (∀ x ∈ (extract th t).1.reach, x ∈ t.leaves) := by
  obtain ⟨x1, x2, x3, x4, x5, x6, x7, x8⟩ := extract_spec th t hf he
  constructor
  · intro cl hcl x hx
    exact x7.mem_iff.mp (List.mem_append.mpr (Or.inl (List.mem_flatten.mpr ⟨cl, hcl, hx⟩)))
  · intro x hx
    exact x7.mem_iff.mp (List.mem_append.mpr (Or.inr hx))

theorem mem_if_isEmpty_eq (c x : List String)
    (h : x ∈ (if c.isEmpty then ([] : List (List String)) else [c])) : x = c := by
  by_cases hc : c.isEmpty = true <;> simp_all

theorem extract_reach_leaves (th : ℚ) (t : ATree) (hf : t.allFree = true)
    (he : t.edgesOK = true) : ∀ x ∈ (extract th t).1.reach, x ∈ t.leaves :=
  (clusters_sub_leaves th t hf he).2

theorem extract_sep (th : ℚ) : ∀ (t : ATree) (p : List Bool) (c : ATree),
    t.allFree = true → t.edgesOK = true → t.leaves.Nodup →
    t.sub p = some c → c.edge = .inf →
    (∀ cl ∈ (extract th t).2, (∀ x ∈ cl, x ∈ c.leaves) ∨ (∀ x ∈ cl, x ∉ c.leaves)) ∧
    (p ≠ [] → ∀ x ∈ (extract th t).1.reach, x ∉ c.leaves) := by
  intro t
  induction t with
  | leaf lab e d u v =>
    intro p c hf he hnd hsub hedge
    cases p with
    | nil =>
      have hd : d = false := by simpa [ATree.allFree] using hf
      subst hd
      constructor
      · intro cl hcl
        simp [extract] at hcl
      · intro hp
        simp at hp
    | cons b p2 => simp [ATree.sub] at hsub
  | node e d u v l r ihl ihr =>
    intro p c hf he hnd hsub hedge
    have hd : d = false := by
      cases d
      · rfl
      · simp [ATree.allFree] at hf
    subst hd
    have hfl : l.allFree = true := by
      simp [ATree.allFree, Bool.and_eq_true] at hf; exact hf.1
    have hfr : r.allFree = true := by
      simp [ATree.allFree, Bool.and_eq_true] at hf; exact hf.2
    have hel : l.edgesOK = true := by
      simp [ATree.edgesOK, Bool.and_eq_true] at he; exact he.2.1
    have her : r.edgesOK = true := by
      simp [ATree.edgesOK, Bool.and_eq_true] at he; exact he.2.2
    have hnd2 := List.nodup_append.mp (by simpa [ATree.leaves] using hnd)
    have hndl : l.leaves.Nodup := hnd2.1
    have hndr : r.leaves.Nodup := hnd2.2.1
    have hdisj : l.leaves.Disjoint r.leaves := hnd2.2.2
    obtain ⟨d1, d2, d3, d4, d5, d6, d7, d8⟩ := extract_spec th l hfl hel
    obtain ⟨e1, e2, e3, e4, e5, e6, e7, e8⟩ := extract_spec th r hfr her
    cases p with
    | nil =>
      have hct : ATree.node e false u v l r = c := by simpa [ATree.sub] using hsub
      subst hct
      refine ⟨?_, ?_⟩
      · intro cl hcl
        left
        intro x hx
        exact (clusters_sub_leaves th (ATree.node e false u v l r) hf he).1 cl hcl x hx
      · intro hp
        simp at hp
    | cons b p2 =>
      have hnrd_ok : (ExtQ.emax (extract th r).1.ld (extract th r).1.rd +
          (extract th r).1.edge).isNinf = false :=
        ExtQ.add_isNinf _ _ (ExtQ.emax_isNinf _ _ e4 e5) (ATree.edgesOK_edge _ e6)
      have hnld_ok : (ExtQ.emax (extract th l).1.ld (extract th l).1.rd +
          (extract th l).1.edge).isNinf = false :=
        ExtQ.add_isNinf _ _ (ExtQ.emax_isNinf _ _ d4 d5) (ATree.edgesOK_edge _ d6)
      cases b with
      | false =>
        have hsubl : l.sub p2 = some c := by simpa [ATree.sub] using hsub
        have hcl_leaves : ∀ x ∈ c.leaves, x ∈ l.leaves := ATree.sub_leaves p2 l c hsubl
        cases p2 with
        | nil =>
          have hct : l = c := by simpa [ATree.sub] using hsubl
          subst hct
          have hinfl : (extract th l).1.edge = .inf := by rw [d3, hedge]
          have hcut : ExtQ.blt (.fin th)
              ((ExtQ.emax (extract th l).1.ld (extract th l).1.rd + (extract th l).1.edge) +
                (ExtQ.emax (extract th r).1.ld (extract th r).1.rd +
                  (extract th r).1.edge)) = true := by
            rw [hinfl, ExtQ.add_inf _ (ExtQ.emax_isNinf _ _ d4 d5),
              ExtQ.inf_add _ hnrd_ok]
            rfl
          have hext : extract th (ATree.node e false u v l r) =
              (ATree.node e false (.fin 0) (.fin 0) (cutMark (extract th l).1)
                  (cutMark (extract th r).1),
                (extract th l).2 ++ (extract th r).2 ++
                  ((if (cutCollect [(extract th l).1]).isEmpty then []
                      else [cutCollect [(extract th l).1]]) ++
                    (if (cutCollect [(extract th r).1]).isEmpty then []
                      else [cutCollect [(extract th r).1]]))) := by
            simp [extract, d1, e1, hcut, cut]
          rw [hext]
          refine ⟨?_, ?_⟩
          · intro cl hcl
            rcases List.mem_append.mp hcl with hcl12 | hcl34
            · rcases List.mem_append.mp hcl12 with hcla | hclb
              · left
                intro x hx
                exact (clusters_sub_leaves th l hfl hel).1 cl hcla x hx
              · right
                intro x hx hxc
                exact hdisj hxc ((clusters_sub_leaves th r hfr her).1 cl hclb x hx)
            · rcases List.mem_append.mp hcl34 with hcl0 | hcl1
              · left
                intro x hx
                have hxc0 : x ∈ cutCollect [(extract th l).1] := by
                  rw [← mem_if_isEmpty_eq _ cl hcl0]; exact hx
                have hxr : x ∈ (extract th l).1.reach :=
                  (cutCollect_perm (extract th l).1).mem_iff.mp hxc0
                exact extract_reach_leaves th l hfl hel x hxr
              · right
                intro x hx hxc
                have hxc1 : x ∈ cutCollect [(extract th r).1] := by
                  rw [← mem_if_isEmpty_eq _ cl hcl1]; exact hx
                have hxr : x ∈ (extract th r).1.reach :=
                  (cutCollect_perm (extract th r).1).mem_iff.mp hxc1
                exact hdisj hxc (extract_reach_leaves th r hfr her x hxr)
          · intro hp x hx
            simp [ATree.reach, cutMark_reach] at hx
        | cons b2 p3 =>
          obtain ⟨ih1, ih2⟩ := ihl (b2 :: p3) c hfl hel hndl hsubl hedge
          have ih2a := ih2 (by simp)
          by_cases hcut : ExtQ.blt (.fin th)
              ((ExtQ.emax (extract th l).1.ld (extract th l).1.rd + (extract th l).1.edge) +
                (ExtQ.emax (extract th r).1.ld (extract th r).1.rd +
                  (extract th r).1.edge)) = true
          · have hext : extract th (ATree.node e false u v l r) =
                (ATree.node e false (.fin 0) (.fin 0) (cutMark (extract th l).1)
                    (cutMark (extract th r).1),
                  (extract th l).2 ++ (extract th r).2 ++
                    ((if (cutCollect [(extract th l).1]).isEmpty then []
                        else [cutCollect [(extract th l).1]]) ++
                      (if (cutCollect [(extract th r).1]).isEmpty then []
                        else [cutCollect [(extract th r).1]]))) := by
              simp [extract, d1, e1, hcut, cut]
            rw [hext]
            refine ⟨?_, ?_⟩
            · intro cl hcl
              rcases List.mem_append.mp hcl with hcl12 | hcl34
              · rcases List.mem_append.mp hcl12 with hcla | hclb
                · exact ih1 cl hcla
                · right
                  intro x hx hxc
                  exact hdisj (hcl_leaves x hxc)
                    ((clusters_sub_leaves th r hfr her).1 cl hclb x hx)
              · rcases List.mem_append.mp hcl34 with hcl0 | hcl1
                · right
                  intro x hx hxc
                  have hxc0 : x ∈ cutCollect [(extract th l).1] := by
                    rw [← mem_if_isEmpty_eq _ cl hcl0]; exact hx
                  exact ih2a x ((cutCollect_perm (extract th l).1).mem_iff.mp hxc0) hxc
                · right
                  intro x hx hxc
                  have hxc1 : x ∈ cutCollect [(extract th r).1] := by
                    rw [← mem_if_isEmpty_eq _ cl hcl1]; exact hx
                  have hxr : x ∈ (extract th r).1.reach :=
                    (cutCollect_perm (extract th r).1).mem_iff.mp hxc1
                  exact hdisj (hcl_leaves x hxc) (extract_reach_leaves th r hfr her x hxr)
            · intro hp x hx
              simp [ATree.reach, cutMark_reach] at hx
          · have hext : extract th (ATree.node e false u v l r) =
                (ATree.node e false
                    (ExtQ.emax (extract th l).1.ld (extract th l).1.rd + (extract th l).1.edge)
                    (ExtQ.emax (extract th r).1.ld (extract th r).1.rd + (extract th r).1.edge)
                    (extract th l).1 (extract th r).1,
                  (extract th l).2 ++ (extract th r).2) := by
              simp [extract, d1, e1, hcut]
            rw [hext]
            refine ⟨?_, ?_⟩
            · intro cl hcl
              rcases List.mem_append.mp hcl with hcla | hclb
              · exact ih1 cl hcla
              · right
                intro x hx hxc
                exact hdisj (hcl_leaves x hxc)
                  ((clusters_sub_leaves th r hfr her).1 cl hclb x hx)
            · intro hp x hx hxc
              have hx2 : x ∈ (extract th l).1.reach ∨ x ∈ (extract th r).1.reach := by
                simpa [ATree.reach] using hx
              rcases hx2 with h | h
              · exact ih2a x h hxc
              · exact hdisj (hcl_leaves x hxc) (extract_reach_leaves th r hfr her x h)
      | true =>
        have hsubr : r.sub p2 = some c := by simpa [ATree.sub] using hsub
        have hcl_leaves : ∀ x ∈ c.leaves, x ∈ r.leaves := ATree.sub_leaves p2 r c hsubr
        cases p2 with
        | nil =>
          have hct : r = c := by simpa [ATree.sub] using hsubr
          subst hct
          have hinfr : (extract th r).1.edge = .inf := by rw [e3, hedge]
          have hcut : ExtQ.blt (.fin th)
              ((ExtQ.emax (extract th l).1.ld (extract th l).1.rd + (extract th l).1.edge) +
                (ExtQ.emax (extract th r).1.ld (extract th r).1.rd +
                  (extract th r).1.edge)) = true := by
            rw [hinfr, ExtQ.add_inf _ (ExtQ.emax_isNinf _ _ e4 e5),
              ExtQ.add_inf _ hnld_ok]
            rfl
          have hext : extract th (ATree.node e false u v l r) =
              (ATree.node e false (.fin 0) (.fin 0) (cutMark (extract th l).1)
                  (cutMark (extract th r).1),
                (extract th l).2 ++ (extract th r).2 ++
                  ((if (cutCollect [(extract th l).1]).isEmpty then []
                      else [cutCollect [(extract th l).1]]) ++
                    (if (cutCollect [(extract th r).1]).isEmpty then []
                      else [cutCollect [(extract th r).1]]))) := by
            simp [extract, d1, e1, hcut, cut]
          rw [hext]
          refine ⟨?_, ?_⟩
          · intro cl hcl
            rcases List.mem_append.mp hcl with hcl12 | hcl34
            · rcases List.mem_append.mp hcl12 with hcla | hclb
              · right
                intro x hx hxc
                exact hdisj ((clusters_sub_leaves th l hfl hel).1 cl hcla x hx) hxc
              · left
                intro x hx
                exact (clusters_sub_leaves th r hfr her).1 cl hclb x hx
            · rcases List.mem_append.mp hcl34 with hcl0 | hcl1
              · right
                intro x hx hxc
                have hxc0 : x ∈ cutCollect [(extract th l).1] := by
                  rw [← mem_if_isEmpty_eq _ cl hcl0]; exact hx
                have hxr : x ∈ (extract th l).1.reach :=
                  (cutCollect_perm (extract th l).1).mem_iff.mp hxc0
                exact hdisj (extract_reach_leaves th l hfl hel x hxr) hxc
              · left
                intro x hx
                have hxc1 : x ∈ cutCollect [(extract th r).1] := by
                  rw [← mem_if_isEmpty_eq _ cl hcl1]; exact hx
                have hxr : x ∈ (extract th r).1.reach :=
                  (cutCollect_perm (extract th r).1).mem_iff.mp hxc1
                exact extract_reach_leaves th r hfr her x hxr
          · intro hp x hx
            simp [ATree.reach, cutMark_reach] at hx
        | cons b2 p3 =>
          obtain ⟨ih1, ih2⟩ := ihr (b2 :: p3) c hfr her hndr hsubr hedge
          have ih2a := ih2 (by simp)
          by_cases hcut : ExtQ.blt (.fin th)
              ((ExtQ.emax (extract th l).1.ld (extract th l).1.rd + (extract th l).1.edge) +
                (ExtQ.emax (extract th r).1.ld (extract th r).1.rd +
                  (extract th r).1.edge)) = true
          · have hext : extract th (ATree.node e false u v l r) =
                (ATree.node e false (.fin 0) (.fin 0) (cutMark (extract th l).1)
                    (cutMark (extract th r).1),
                  (extract th l).2 ++ (extract th r).2 ++
                    ((if (cutCollect [(extract th l).1]).isEmpty then []
                        else [cutCollect [(extract th l).1]]) ++
                      (if (cutCollect [(extract th r).1]).isEmpty then []
                        else [cutCollect [(extract th r).1]]))) := by
              simp [extract, d1, e1, hcut, cut]
            rw [hext]
            refine ⟨?_, ?_⟩
            · intro cl hcl
              rcases List.mem_append.mp hcl with hcl12 | hcl34
              · rcases List.mem_append.mp hcl12 with hcla | hclb
                · right
                  intro x hx hxc
                  exact hdisj ((clusters_sub_leaves th l hfl hel).1 cl hcla x hx)
                    (hcl_leaves x hxc)
                · exact ih1 cl hclb
              · rcases List.mem_append.mp hcl34 with hcl0 | hcl1
                · right
                  intro x hx hxc
                  have hxc0 : x ∈ cutCollect [(extract th l).1] := by
                    rw [← mem_if_isEmpty_eq _ cl hcl0]; exact hx
                  have hxr : x ∈ (extract th l).1.reach :=
                    (cutCollect_perm (extract th l).1).mem_iff.mp hxc0
                  exact hdisj (extract_reach_leaves th l hfl hel x hxr) (hcl_leaves x hxc)
                · right
                  intro x hx hxc
                  have hxc1 : x ∈ cutCollect [(extract th r).1] := by
                    rw [← mem_if_isEmpty_eq _ cl hcl1]; exact hx
                  exact ih2a x ((cutCollect_perm (extract th r).1).mem_iff.mp hxc1) hxc
            · intro hp x hx
              simp [ATree.reach, cutMark_reach] at hx
          · have hext : extract th (ATree.node e false u v l r) =
                (ATree.node e false
                    (ExtQ.emax (extract th l).1.ld (extract th l).1.rd + (extract th l).1.edge)
                    (ExtQ.emax (extract th r).1.ld (extract th r).1.rd + (extract th r).1.edge)
                    (extract th l).1 (extract th r).1,
                  (extract th l).2 ++ (extract th r).2) := by
              simp [extract, d1, e1, hcut]
            rw [hext]
            refine ⟨?_, ?_⟩
            · intro cl hcl
              rcases List.mem_append.mp hcl with hcla | hclb
              · right
                intro x hx hxc
                exact hdisj ((clusters_sub_leaves th l hfl hel).1 cl hcla x hx)
                  (hcl_leaves x hxc)
              · exact ih1 cl hclb
            · intro hp x hx hxc
              have hx2 : x ∈ (extract th l).1.reach ∨ x ∈ (extract th r).1.reach := by
                simpa [ATree.reach] using hx
              rcases hx2 with h | h
              · exact hdisj (extract_reach_leaves th l hfl hel x h) (hcl_leaves x hxc)
              · exact ih2a x h hxc

theorem prep_sub (s : ExtQ) : ∀ (p : List Bool) (tr C : PhyloTree),
    tr.sub p = some C → ((prep s tr).1).sub p = some (prep s C).1 := by
  intro p
  induction p with
  | nil =>
    intro tr C h
    have hct : tr = C := by simpa [PhyloTree.sub] using h
    subst hct
    simp [ATree.sub]
  | cons b p ih =>
    intro tr C h
    cases tr with
    | leaf lab e => simp [PhyloTree.sub] at h
    | node conf e l r =>
      cases b
      · have h2 : l.sub p = some C := by simpa [PhyloTree.sub] using h
        simpa [prep, ATree.sub] using ih l C h2
      · have h2 : r.sub p = some C := by simpa [PhyloTree.sub] using h
        simpa [prep, ATree.sub] using ih r C h2

theorem min_clusters_cases (tr : PhyloTree) (t : ℚ) (s : ExtQ) :
    ∀ cl ∈ min_clusters_threshold_max_clade tr t s,
      cl ∈ (extract t (prep s tr).1).2 ∨
        cl.Perm ((extract t (prep s tr).1).1.reach) := by
  obtain ⟨hp1, hp2, hp3, hp4⟩ := prep_spec s tr
  obtain ⟨x1, x2, x3, x4, x5, x6, x7, x8⟩ := extract_spec t (prep s tr).1 hp1 hp2
  have hx7 : ((extract t (prep s tr).1).2.flatten ++
      (extract t (prep s tr).1).1.reach).Perm (prep s tr).2 := by
    rw [hp4, ← hp3]; exact x7
  have hremperm : ((extract t (prep s tr).1).2.foldl
        (fun acc c => c.foldl (fun a x => a.erase x) acc) (prep s tr).2).Perm
      ((extract t (prep s tr).1).1.reach) := by
    rw [foldl_erase_flatten]
    exact foldl_erase_perm _ _ _ hx7
  have hmc : min_clusters_threshold_max_clade tr t s =
      (if ((extract t (prep s tr).1).2.foldl
            (fun acc c => c.foldl (fun a x => a.erase x) acc) (prep s tr).2).isEmpty then
        (extract t (prep s tr).1).2
      else (extract t (prep s tr).1).2 ++
        [(extract t (prep s tr).1).2.foldl
          (fun acc c => c.foldl (fun a x => a.erase x) acc) (prep s tr).2]) := rfl
  intro cl hcl
  rw [hmc] at hcl
  by_cases hre : ((extract t (prep s tr).1).2.foldl
      (fun acc c => c.foldl (fun a x => a.erase x) acc) (prep s tr).2).isEmpty = true
  · rw [if_pos hre] at hcl
    exact Or.inl hcl
  · rw [if_neg hre] at hcl
    rcases List.mem_append.mp hcl with hcl1 | hcl2
    · exact Or.inl hcl1
    · right
      have hcr : cl = (extract t (prep s tr).1).2.foldl
          (fun acc c => c.foldl (fun a x => a.erase x) acc) (prep s tr).2 := by
        simpa using hcl2
      rw [hcr]
      exact hremperm

/-- Claim C2 (support forcing): if an internal node of the input tree has a
parsed confidence (default 100 when the label does not parse) strictly below
the support threshold `s`, then `prep` replaces that node's `edge_length` by
`+inf`, and consequently for every distance threshold `t ≥ 0` no cluster
returned by `min_clusters_threshold_max_clade` mixes a leaf below that node
with a leaf outside it (the cut is forced at or below that edge). -/
theorem C2_support_forcing (tr : PhyloTree) (p : List Bool) (conf e : Option ℚ)
    (l r : PhyloTree) (s : ExtQ) (t : ℚ)
    (hsub : tr.sub p = some (.node conf e l r))
    (hconf : ExtQ.blt (.fin (conf.getD 100)) s = true)
    (hnd : tr.leafList.Nodup) (ht : 0 ≤ t) :
    (((prep s tr).1).sub p = some (prep s (.node conf e l r)).1 ∧
      ((prep s (.node conf e l r)).1).edge = .inf) ∧
    (∀ cl ∈ min_clusters_threshold_max_clade tr t s,
      (∀ x ∈ cl, x ∈ (PhyloTree.node conf e l r).leafList) ∨
      (∀ x ∈ cl, x ∉ (PhyloTree.node conf e l r).leafList)) := by
  have hedge : ((prep s (.node conf e l r)).1).edge = .inf := by
    simp [prep, ATree.edge, hconf]
  obtain ⟨hp1, hp2, hp3, hp4⟩ := prep_spec s tr
  obtain ⟨hq1, hq2, hq3, hq4⟩ := prep_spec s (.node conf e l r)
  have hndA : ((prep s tr).1).leaves.Nodup := by rw [hp3]; exact hnd
  have hsubA : ((prep s tr).1).sub p = some (prep s (.node conf e l r)).1 :=
    prep_sub s p tr _ hsub
  obtain ⟨sep1, sep2⟩ := extract_sep t (prep s tr).1 p (prep s (.node conf e l r)).1
    hp1 hp2 hndA hsubA hedge
  refine ⟨⟨hsubA, hedge⟩, ?_⟩
  intro cl hcl
  rcases min_clusters_cases tr t s cl hcl with hin | hperm
  · rcases sep1 cl hin with hl | hr
    · left
      intro x hx
      rw [← hq3]
      exact hl x hx
    · right
      intro x hx
      rw [← hq3]
      exact hr x hx
  · cases p with
    | nil =>
      have htr : tr = PhyloTree.node conf e l r := by simpa [PhyloTree.sub] using hsub
      subst htr
      left
      intro x hx
      have hx2 : x ∈ (extract t (prep s (PhyloTree.node conf e l r)).1).1.reach :=
        hperm.mem_iff.mp hx
      have := extract_reach_leaves t (prep s (PhyloTree.node conf e l r)).1 hp1 hp2 x hx2
      rw [hp3] at this
      exact this
    | cons b p2 =>
      right
      intro x hx
      have hx2 : x ∈ (extract t (prep s tr).1).1.reach := hperm.mem_iff.mp hx
      have hnot := sep2 (by simp) x hx2
      rw [← hq3]
      exact hnot

/-- A tree whose first child is an internal node labelled `0.5` (parsed
confidence 1/2), used to witness support forcing with `s = 4/5`. -/
def treeC : PhyloTree := .node none none
  (.node (some (1/2)) (some 1) (.leaf "A" (some 1)) (.leaf "B" (some 1)))
  (.leaf "C" (some 1))

/-- Witness for C2 at `treeC`, path `[false]`, `s = 4/5`, `t = 0`. -/
theorem C2_witness :
    treeC.sub [false] =
      some (.node (some ((1 : ℚ)/2)) (some 1) (.leaf "A" (some 1)) (.leaf "B" (some 1))) ∧
    ExtQ.blt (.fin ((some ((1 : ℚ)/2)).getD 100)) (.fin (4/5)) = true ∧
    treeC.leafList.Nodup ∧ ((0 : ℚ) ≤ 0) ∧
    ((((prep (.fin (4/5)) treeC).1).sub [false]) =
        some (prep (.fin (4/5))
          (.node (some ((1 : ℚ)/2)) (some 1) (.leaf "A" (some 1)) (.leaf "B" (some 1)))).1 ∧
      ((prep (.fin (4/5))
          (.node (some ((1 : ℚ)/2)) (some 1)
            (.leaf "A" (some 1)) (.leaf "B" (some 1)))).1).edge = .inf) ∧
    (∀ cl ∈ min_clusters_threshold_max_clade treeC 0 (.fin (4/5)),
      (∀ x ∈ cl, x ∈ (PhyloTree.node (some ((1 : ℚ)/2)) (some 1)
        (.leaf "A" (some 1)) (.leaf "B" (some 1))).leafList) ∨
      (∀ x ∈ cl, x ∉ (PhyloTree.node (some ((1 : ℚ)/2)) (some 1)
        (.leaf "A" (some 1)) (.leaf "B" (some 1))).leafList)) :=
  ⟨by decide, by decide, by decide, by norm_num,
    C2_support_forcing treeC [false] (some (1/2)) (some 1) _ _ (.fin (4/5)) 0
      (by decide) (by decide) (by decide) (by norm_num)⟩

/-! ### Deletion-invariant lemmas (claim C9) -/

theorem ATree.allDel_downClosed (t : ATree) (h : t.allDel = true) : t.downClosed = true := by
  induction t <;> simp_all [ATree.allDel, ATree.downClosed]

theorem cutMark_allDel (t : ATree) (h : t.downClosed = true) : (cutMark t).allDel = true := by
  induction t with
  | leaf lab e d u v => cases d <;> simp [cutMark, ATree.del, ATree.allDel]
  | node e d u v l r ihl ihr =>
    cases d with
    | false =>
      have hdc : l.downClosed = true ∧ r.downClosed = true := by
        simp [ATree.downClosed, Bool.and_eq_true] at h
        tauto
      simp [cutMark, ATree.del, ATree.allDel, ihl hdc.1, ihr hdc.2]
    | true =>
      have hall : l.allDel = true ∧ r.allDel = true := by
        simp [ATree.downClosed, Bool.and_eq_true] at h
        tauto
      simp [cutMark, ATree.del, ATree.allDel, hall.1, hall.2]

theorem ATree.delLE_refl (t : ATree) : t.delLE t = true := by
  induction t <;> simp_all [ATree.delLE]

theorem ATree.delLE_trans : ∀ (a b c : ATree),
    a.delLE b = true → b.delLE c = true → a.delLE c = true := by
  intro a
  induction a with
  | leaf lab e d u v =>
    intro b c h1 h2
    cases b with
    | leaf lb eb db ub vb =>
      cases c with
      | leaf lc ec dc2 uc vc =>
        simp [ATree.delLE] at h1 h2 ⊢
        rcases h1 with h1 | h1 <;> rcases h2 with h2 | h2 <;> simp_all
      | node ec dc2 uc vc lc rc => simp [ATree.delLE] at h2
    | node eb db ub vb lb rb => simp [ATree.delLE] at h1
  | node e d u v l r ihl ihr =>
    intro b c h1 h2
    cases b with
    | leaf lb eb db ub vb => simp [ATree.delLE] at h1
    | node eb db ub vb lb rb =>
      cases c with
      | leaf lc ec dc2 uc vc => simp [ATree.delLE] at h2
      | node ec dc2 uc vc lc rc =>
        simp only [ATree.delLE, Bool.and_eq_true, Bool.or_eq_true, Bool.not_eq_eq_eq_not,
          Bool.not_true] at h1 h2 ⊢
        refine ⟨?_, ihl lb lc h1.2.1 h2.2.1, ihr rb rc h1.2.2 h2.2.2⟩
        rcases h1.1 with h | h <;> rcases h2.1 with h2a | h2a <;> simp_all

theorem cutMark_delLE (t : ATree) : t.delLE (cutMark t) = true := by
  induction t with
  | leaf lab e d u v => cases d <;> simp [cutMark, ATree.del, ATree.delLE]
  | node e d u v l r ihl ihr =>
    cases d with
    | false => simp [cutMark, ATree.del, ATree.delLE, ihl, ihr]
    | true =>
      have hcm : cutMark (ATree.node e true u v l r) = ATree.node e true u v l r := by
        simp [cutMark, ATree.del]
      rw [hcm]
      exact ATree.delLE_refl _

theorem extract_allDel (th : ℚ) : ∀ t : ATree, t.allDel = true → extract th t = (t, []) := by
  intro t
  induction t with
  | leaf lab e d u v =>
    intro h
    have hd : d = true := by simpa [ATree.allDel] using h
    subst hd
    simp [extract]
  | node e d u v l r ihl ihr =>
    intro h
    have hd : d = true ∧ l.allDel = true ∧ r.allDel = true := by
      simpa [ATree.allDel, Bool.and_eq_true] using h
    obtain ⟨hd1, hd2, hd3⟩ := hd
    subst hd1
    simp [extract, ihl hd2, ihr hd3]

theorem extract_downClosed (th : ℚ) : ∀ t : ATree, t.downClosed = true →
    ((extract th t).1).downClosed = true ∧ t.delLE ((extract th t).1) = true := by
  intro t
  induction t with
  | leaf lab e d u v =>
    intro h
    cases d <;> simp [extract, ATree.downClosed, ATree.delLE]
  | node e d u v l r ihl ihr =>
    intro h
    cases d with
    | true =>
      have hall : l.allDel = true ∧ r.allDel = true := by
        simp [ATree.downClosed, Bool.and_eq_true] at h
        tauto
      have hext : extract th (ATree.node e true u v l r) = (ATree.node e true u v l r, []) := by
        simp [extract, extract_allDel th l hall.1, extract_allDel th r hall.2]
      rw [hext]
      exact ⟨h, ATree.delLE_refl _⟩
    | false =>
      have hdc : l.downClosed = true ∧ r.downClosed = true := by
        simp [ATree.downClosed, Bool.and_eq_true] at h
        tauto
      obtain ⟨il1, il2⟩ := ihl hdc.1
      obtain ⟨ir1, ir2⟩ := ihr hdc.2
      have hmid : (ATree.node e false u v l r).delLE
          (ATree.node e false u v (extract th l).1 (extract th r).1) = true := by
        simp [ATree.delLE, il2, ir2]
      by_cases hdel : ((extract th l).1.del && (extract th r).1.del) = true
      · have hext : extract th (ATree.node e false u v l r) =
            (cutMark (ATree.node e false u v (extract th l).1 (extract th r).1),
              (extract th l).2 ++ (extract th r).2) := by
          simp [extract, hdel, cut]
        rw [hext]
        have hdcX : (ATree.node e false u v (extract th l).1 (extract th r).1).downClosed
            = true := by
          simp [ATree.downClosed, il1, ir1]
        refine ⟨ATree.allDel_downClosed _ (cutMark_allDel _ hdcX), ?_⟩
        exact ATree.delLE_trans _ _ _ hmid (cutMark_delLE _)
      · by_cases hcut : ExtQ.blt (.fin th)
            ((if (extract th l).1.del then ExtQ.fin 0
              else ExtQ.emax (extract th l).1.ld (extract th l).1.rd + (extract th l).1.edge) +
              (if (extract th r).1.del then ExtQ.fin 0
                else ExtQ.emax (extract th r).1.ld (extract th r).1.rd +
                  (extract th r).1.edge)) = true
        · have hext : extract th (ATree.node e false u v l r) =
              (ATree.node e false (.fin 0) (.fin 0) (cutMark (extract th l).1)
                  (cutMark (extract th r).1),
                (extract th l).2 ++ (extract th r).2 ++
                  ((if (cutCollect [(extract th l).1]).isEmpty then []
                      else [cutCollect [(extract th l).1]]) ++
                    (if (cutCollect [(extract th r).1]).isEmpty then []
                      else [cutCollect [(extract th r).1]]))) := by
            simp [extract, hdel, hcut, cut]
          rw [hext]
          constructor
          · have hdl : (cutMark (extract th l).1).allDel = true := cutMark_allDel _ il1
            have hdr : (cutMark (extract th r).1).allDel = true := cutMark_allDel _ ir1
            simp [ATree.downClosed, ATree.allDel_downClosed _ hdl,
              ATree.allDel_downClosed _ hdr]
          · have hstep : (ATree.node e false u v (extract th l).1 (extract th r).1).delLE
                (ATree.node e false (.fin 0) (.fin 0) (cutMark (extract th l).1)
                  (cutMark (extract th r).1)) = true := by
              simp [ATree.delLE, cutMark_delLE]
            exact ATree.delLE_trans _ _ _ hmid hstep
        · have hext : extract th (ATree.node e false u v l r) =
              (ATree.node e false
                  (if (extract th l).1.del then ExtQ.fin 0
                    else ExtQ.emax (extract th l).1.ld (extract th l).1.rd +
                      (extract th l).1.edge)
                  (if (extract th r).1.del then ExtQ.fin 0
                    else ExtQ.emax (extract th r).1.ld (extract th r).1.rd +
                      (extract th r).1.edge)
                  (extract th l).1 (extract th r).1,
                (extract th l).2 ++ (extract th r).2) := by
            simp [extract, hdel, hcut]
          rw [hext]
          constructor
          · simp [ATree.downClosed, il1, ir1]
          · simp [ATree.delLE, il2, ir2]

/-- Claim C9 (deletion monotonicity invariant): preparation starts every
node with `DELETED = false`; both state-mutating primitives of a pass — the
excision `cut` and the postorder step `extract` — preserve downward
closure of the `DELETED` flags (a deleted node has a fully deleted subtree)
and never reset a `DELETED` flag back to false (`delLE`). -/
theorem C9_deletion_invariant :
    (∀ (s : ExtQ) (tr : PhyloTree), ((prep s tr).1).allFree = true) ∧
    (∀ t : ATree, t.downClosed = true →
      ((cut t).2).downClosed = true ∧ t.delLE ((cut t).2) = true) ∧
    (∀ (th : ℚ) (t : ATree), t.downClosed = true →
      ((extract th t).1).downClosed = true ∧ t.delLE ((extract th t).1) = true) := by
  refine ⟨fun s tr => (prep_spec s tr).1, fun t h => ?_, fun th t h => extract_downClosed th t h⟩
  exact ⟨ATree.allDel_downClosed _ (cutMark_allDel _ h), cutMark_delLE t⟩

/-- A partially deleted but downward-closed working tree used as the C9
witness input. -/
def treeMixed : ATree := ATree.node (.fin 0) false (.fin 0) (.fin 0)
  (.leaf "A" (.fin 1) false (.fin 0) (.fin 0))
  (.leaf "B" (.fin 1) true (.fin 0) (.fin 0))

/-- Witness for C9 applying each conjunct at concrete inputs. -/
theorem C9_witness :
    ((prep .ninf (.leaf "A" none)).1).allFree = true ∧
    (treeMixed.downClosed = true ∧
      ((cut treeMixed).2).downClosed = true ∧ treeMixed.delLE ((cut treeMixed).2) = true) ∧
    (((extract 1 treeMixed).1).downClosed = true ∧
      treeMixed.delLE ((extract 1 treeMixed).1) = true) :=
  ⟨C9_deletion_invariant.1 .ninf (.leaf "A" none),
    ⟨by decide, C9_deletion_invariant.2.1 treeMixed (by decide)⟩,
    C9_deletion_invariant.2.2 1 treeMixed (by decide)⟩

/-! ### The threshold scan (claims C3, C4, C10) -/


/-! ### The threshold scan (claims C3, C4, C10) -/

theorem thresholdGrid_length (U : ℚ) : (thresholdGrid U).length = NUM_THRESH + 1 := by
  rw [thresholdGrid, List.length_map, List.length_range]

theorem thresholdGrid_get (U : ℚ) (i : ℕ) (hi : i < (thresholdGrid U).length) :
    (thresholdGrid U).get ⟨i, hi⟩ = (i : ℚ) * U / (NUM_THRESH : ℚ) := by
  simp [thresholdGrid]

theorem thresholdGrid_mono (U : ℚ) (hU : 0 ≤ U) (i j : ℕ)
    (hi : i < (thresholdGrid U).length) (hj : j < (thresholdGrid U).length) (hij : i ≤ j) :
    (thresholdGrid U).get ⟨i, hi⟩ ≤ (thresholdGrid U).get ⟨j, hj⟩ := by
  rw [thresholdGrid_get, thresholdGrid_get]
  have hc : (i : ℚ) ≤ (j : ℚ) := by exact_mod_cast hij
  have h1000 : (0 : ℚ) < (NUM_THRESH : ℚ) := by norm_num [NUM_THRESH]
  exact (div_le_div_right h1000).mpr (mul_le_mul_of_nonneg_right hc hU)

theorem scan_spec (f : ℚ → ℕ) : ∀ (ts : List ℚ) (acc : ℤ × ℚ × ℚ),
    (ts.foldl (scanStep f) acc = acc ∧ ∀ t ∈ ts, (f t : ℤ) ≤ acc.1) ∨
    (∃ i, ∃ hi : i < ts.length,
      ts.foldl (scanStep f) acc =
        ((f (ts.get ⟨i, hi⟩) : ℤ), ts.get ⟨i, hi⟩, round3 (ts.get ⟨i, hi⟩)) ∧
      acc.1 < (f (ts.get ⟨i, hi⟩) : ℤ) ∧
      (∀ j, ∀ hj : j < ts.length, j < i → f (ts.get ⟨j, hj⟩) < f (ts.get ⟨i, hi⟩)) ∧
      (∀ j, ∀ hj : j < ts.length, f (ts.get ⟨j, hj⟩) ≤ f (ts.get ⟨i, hi⟩))) := by
  intro ts
  induction ts with
  | nil =>
    intro acc
    left
    exact ⟨rfl, by simp⟩
  | cons t ts ih =>
    intro acc
    by_cases h : (f t : ℤ) ≤ acc.1
    · have hstep : scanStep f acc t = acc := by
        simp [scanStep, not_lt.mpr h]
      rcases ih acc with ⟨h1, h2⟩ | ⟨i, hi, h1, h2, h3, h4⟩
      · left
        refine ⟨by rw [List.foldl_cons, hstep]; exact h1, ?_⟩
        intro x hx
        rcases List.mem_cons.mp hx with hx | hx
        · rw [hx]; exact h
        · exact h2 x hx
      · right
        have hi2 : i + 1 < (t :: ts).length := Nat.succ_lt_succ hi
        have hget : (t :: ts).get ⟨i + 1, hi2⟩ = ts.get ⟨i, hi⟩ := rfl
        refine ⟨i + 1, hi2, ?_, ?_, ?_, ?_⟩
        · rw [List.foldl_cons, hstep, hget]
          exact h1
        · rw [hget]; exact h2
        · intro j hj hji
          rw [hget]
          cases j with
          | zero =>
            show f t < f (ts.get ⟨i, hi⟩)
            have hlt : (f t : ℤ) < (f (ts.get ⟨i, hi⟩) : ℤ) := lt_of_le_of_lt h h2
            exact_mod_cast hlt
          | succ j =>
            have hj2 : j < ts.length := Nat.succ_lt_succ_iff.mp hj
            show f (ts.get ⟨j, hj2⟩) < f (ts.get ⟨i, hi⟩)
            exact h3 j hj2 (by omega)
        · intro j hj
          rw [hget]
          cases j with
          | zero =>
            show f t ≤ f (ts.get ⟨i, hi⟩)
            have hle : (f t : ℤ) ≤ (f (ts.get ⟨i, hi⟩) : ℤ) := le_of_lt (lt_of_le_of_lt h h2)
            exact_mod_cast hle
          | succ j =>
            have hj2 : j < ts.length := Nat.succ_lt_succ_iff.mp hj
            show f (ts.get ⟨j, hj2⟩) ≤ f (ts.get ⟨i, hi⟩)
            exact h4 j hj2
    · have hlt : acc.1 < (f t : ℤ) := not_le.mp h
      have hstep : scanStep f acc t = ((f t : ℤ), t, round3 t) := by
        simp [scanStep, hlt]
      rcases ih ((f t : ℤ), t, round3 t) with ⟨h1, h2⟩ | ⟨i, hi, h1, h2, h3, h4⟩
      · right
        have hi2 : 0 < (t :: ts).length := Nat.succ_pos _
        refine ⟨0, hi2, ?_, ?_, ?_, ?_⟩
        · rw [List.foldl_cons, hstep]
          exact h1
        · exact hlt
        · intro j hj hji
          omega
        · intro j hj
          cases j with
          | zero => exact le_refl _
          | succ j =>
            have hj2 : j < ts.length := Nat.succ_lt_succ_iff.mp hj
            have hmem := h2 (ts.get ⟨j, hj2⟩) (List.get_mem ts j hj2)
            have hmem2 : (f (ts.get ⟨j, hj2⟩) : ℤ) ≤ (f t : ℤ) := hmem
            show f (ts.get ⟨j, hj2⟩) ≤ f t
            exact_mod_cast hmem2
      · right
        have hi2 : i + 1 < (t :: ts).length := Nat.succ_lt_succ hi
        have hget : (t :: ts).get ⟨i + 1, hi2⟩ = ts.get ⟨i, hi⟩ := rfl
        refine ⟨i + 1, hi2, ?_, ?_, ?_, ?_⟩
        · rw [List.foldl_cons, hstep, hget]
          exact h1
        · rw [hget]
          exact lt_trans hlt h2
        · intro j hj hji
          rw [hget]
          cases j with
          | zero =>
            show f t < f (ts.get ⟨i, hi⟩)
            have hlt2 : (f t : ℤ) < (f (ts.get ⟨i, hi⟩) : ℤ) := h2
            exact_mod_cast hlt2
          | succ j =>
            have hj2 : j < ts.length := Nat.succ_lt_succ_iff.mp hj
            show f (ts.get ⟨j, hj2⟩) < f (ts.get ⟨i, hi⟩)
            exact h3 j hj2 (by omega)
        · intro j hj
          rw [hget]
          cases j with
          | zero =>
            show f t ≤ f (ts.get ⟨i, hi⟩)
            have hle : (f t : ℤ) ≤ (f (ts.get ⟨i, hi⟩) : ℤ) := le_of_lt h2
            exact_mod_cast hle
          | succ j =>
            have hj2 : j < ts.length := Nat.succ_lt_succ_iff.mp hj
            show f (ts.get ⟨j, hj2⟩) ≤ f (ts.get ⟨i, hi⟩)
            exact h4 j hj2

/-- Claim C3 (tie-break determinism): a scan step replaces the stored best
only when the candidate's non-singleton count is strictly greater, and
consequently the scan over the candidate grid stores the earliest candidate
attaining the maximum count: every earlier candidate has a strictly smaller
count, and any candidate with an equal count has a greater-or-equal
threshold value (the grid is increasing for `U ≥ 0`). -/
theorem C3_tiebreak (tr : PhyloTree) (U : ℚ) (hU : 0 ≤ U) :
    (∀ (acc : ℤ × ℚ × ℚ) (t : ℚ), ((nonSingletonCount tr t : ℤ) ≤ acc.1) →
      scanStep (nonSingletonCount tr) acc t = acc) ∧
    (∃ i, ∃ hi : i < (thresholdGrid U).length,
      ((thresholdGrid U).foldl (scanStep (nonSingletonCount tr)) (-1, -1, -1)).2.1 =
        (thresholdGrid U).get ⟨i, hi⟩ ∧
      ((thresholdGrid U).foldl (scanStep (nonSingletonCount tr)) (-1, -1, -1)).1 =
        (nonSingletonCount tr ((thresholdGrid U).get ⟨i, hi⟩) : ℤ) ∧
      (∀ j, ∀ hj : j < (thresholdGrid U).length, j < i →
        nonSingletonCount tr ((thresholdGrid U).get ⟨j, hj⟩) <
          nonSingletonCount tr ((thresholdGrid U).get ⟨i, hi⟩)) ∧
      (∀ j, ∀ hj : j < (thresholdGrid U).length,
        nonSingletonCount tr ((thresholdGrid U).get ⟨j, hj⟩) =
          nonSingletonCount tr ((thresholdGrid U).get ⟨i, hi⟩) →
        (thresholdGrid U).get ⟨i, hi⟩ ≤ (thresholdGrid U).get ⟨j, hj⟩)) := by
  constructor
  · intro acc t h
    simp [scanStep, not_lt.mpr h]
  · rcases scan_spec (nonSingletonCount tr) (thresholdGrid U) (-1, -1, -1) with
      ⟨h1, h2⟩ | ⟨i, hi, h1, h2, h3, h4⟩
    · exfalso
      have hlen : 0 < (thresholdGrid U).length := by rw [thresholdGrid_length]; omega
      have h5 : ((nonSingletonCount tr ((thresholdGrid U).get ⟨0, hlen⟩)) : ℤ) ≤ -1 :=
        h2 ((thresholdGrid U).get ⟨0, hlen⟩) (List.get_mem _ 0 hlen)
      omega
    · refine ⟨i, hi, by rw [h1], by rw [h1], h3, ?_⟩
      intro j hj heq
      by_cases hij : j < i
      · exact absurd heq (ne_of_lt (h3 j hj hij))
      · exact thresholdGrid_mono U hU i j hi hj (by omega)

/-- Witness for C3 at the single-leaf tree and `U = 1`. -/
theorem C3_witness :
    ((0 : ℚ) ≤ 1) ∧
    ((∀ (acc : ℤ × ℚ × ℚ) (t : ℚ),
        ((nonSingletonCount (.leaf "A" none) t : ℤ) ≤ acc.1) →
        scanStep (nonSingletonCount (.leaf "A" none)) acc t = acc) ∧
      (∃ i, ∃ hi : i < (thresholdGrid 1).length,
        ((thresholdGrid 1).foldl (scanStep (nonSingletonCount (.leaf "A" none)))
            (-1, -1, -1)).2.1 = (thresholdGrid 1).get ⟨i, hi⟩ ∧
        ((thresholdGrid 1).foldl (scanStep (nonSingletonCount (.leaf "A" none)))
            (-1, -1, -1)).1 =
          (nonSingletonCount (.leaf "A" none) ((thresholdGrid 1).get ⟨i, hi⟩) : ℤ) ∧
        (∀ j, ∀ hj : j < (thresholdGrid 1).length, j < i →
          nonSingletonCount (.leaf "A" none) ((thresholdGrid 1).get ⟨j, hj⟩) <
            nonSingletonCount (.leaf "A" none) ((thresholdGrid 1).get ⟨i, hi⟩)) ∧
        (∀ j, ∀ hj : j < (thresholdGrid 1).length,
          nonSingletonCount (.leaf "A" none) ((thresholdGrid 1).get ⟨j, hj⟩) =
            nonSingletonCount (.leaf "A" none) ((thresholdGrid 1).get ⟨i, hi⟩) →
          (thresholdGrid 1).get ⟨i, hi⟩ ≤ (thresholdGrid 1).get ⟨j, hj⟩))) :=
  ⟨by norm_num, C3_tiebreak (.leaf "A" none) 1 (by norm_num)⟩

theorem round3_neg_one : round3 (-1) = -1 := by decide

/-- Claim C4 (amended): after scanning all 1001 candidates `i*U/1000`, the
search performs exactly one final extraction run with the caller's real
support threshold `s` — but at the winning candidate threshold rounded to
three decimal places (`best_t = float(round(t, 3))` in the source), not at
the raw winning candidate itself — and returns that run's clusters. -/
theorem C4_final_run (tr : PhyloTree) (U : ℚ) (s : ExtQ) :
    (thresholdGrid U).length = NUM_THRESH + 1 ∧
    (∀ i, ∀ hi : i < (thresholdGrid U).length,
      (thresholdGrid U).get ⟨i, hi⟩ = (i : ℚ) * U / (NUM_THRESH : ℚ)) ∧
    argmax_clusters tr U s =
      min_clusters_threshold_max_clade tr
        (round3 (((thresholdGrid U).foldl (scanStep (nonSingletonCount tr))
          (-1, -1, -1)).2.1)) s := by
  refine ⟨thresholdGrid_length U, fun i hi => thresholdGrid_get U i hi, ?_⟩
  have hdef : argmax_clusters tr U s = min_clusters_threshold_max_clade tr
      (((thresholdGrid U).foldl (scanStep (nonSingletonCount tr)) (-1, -1, -1)).2.2) s := rfl
  rw [hdef]
  rcases scan_spec (nonSingletonCount tr) (thresholdGrid U) (-1, -1, -1) with
    ⟨h1, h2⟩ | ⟨i, hi, h1, h2, h3, h4⟩
  · rw [h1]
    show min_clusters_threshold_max_clade tr (-1) s =
      min_clusters_threshold_max_clade tr (round3 (-1)) s
    rw [round3_neg_one]
  · rw [h1]

/-- The two-leaf tree `(A:0.0001,B:0.0001);` used for the C4 counterexample. -/
def tree2 : PhyloTree := .node none none
  (.leaf "A" (some (1/10000))) (.leaf "B" (some (1/10000)))

theorem tree2_run (t : ℚ) :
    min_clusters_threshold_max_clade tree2 t .ninf =
      if t < 1/5000 then [["A"], ["B"]] else [["A", "B"]] := by
  have hsum : (10000⁻¹ + 10000⁻¹ : ℚ) = 1/5000 := by norm_num
  have hform : (5000⁻¹ : ℚ) = 1/5000 := by norm_num
  by_cases h : t < 1/5000
  · rw [if_pos h]
    have h5 : t < (5000⁻¹ : ℚ) := by rwa [hform]
    simp [min_clusters_threshold_max_clade, tree2, prep, extract, ATree.del, ATree.ld, ATree.rd,
      ATree.edge, ExtQ.emax, ExtQ.blt, ExtQ.add_def, ExtQ.add, hsum, h5, cut, cutCollect,
      cutCollectAux, sizeQ, ATree.size, cutMark]
  · rw [if_neg h]
    have h5 : ¬ t < (5000⁻¹ : ℚ) := by rwa [hform]
    simp [min_clusters_threshold_max_clade, tree2, prep, extract, ATree.del, ATree.ld, ATree.rd,
      ATree.edge, ExtQ.emax, ExtQ.blt, ExtQ.add_def, ExtQ.add, hsum, h5, cut, cutCollect,
      cutCollectAux, sizeQ, ATree.size, cutMark]

theorem tree2_count (t : ℚ) : nonSingletonCount tree2 t ≤ 1 := by
  rw [nonSingletonCount, tree2_run]
  by_cases h : t < 1/5000
  · rw [if_pos h]
    simp [countNonSingleton]
  · rw [if_neg h]
    simp [countNonSingleton]

theorem tree2_count_zero : nonSingletonCount tree2 0 = 0 := by
  rw [nonSingletonCount, tree2_run, if_pos (by norm_num : (0 : ℚ) < 1/5000)]
  simp [countNonSingleton]

theorem tree2_count_win : nonSingletonCount tree2 (1/5000) = 1 := by
  rw [nonSingletonCount, tree2_run, if_neg (by norm_num : ¬ ((1 : ℚ)/5000 < 1/5000))]
  simp [countNonSingleton]

theorem round3_win : round3 (1/5000) = 0 := by decide

theorem round3_zero : round3 0 = 0 := by decide

/-- Counterexample for C4 as stated: on `tree2` with `U = 1/5` the raw
winning candidate of the scan is `1/5000` (earliest maximal non-singleton
count), and a final run at that winning candidate would return `[[A, B]]`;
but `argmax_clusters` returns `[[A], [B]]`, because the final run happens at
`round(1/5000, 3) = 0` rather than at the winning candidate itself. -/
theorem C4_counterexample :
    (((thresholdGrid (1/5)).foldl (scanStep (nonSingletonCount tree2)) (-1, -1, -1)).2.1 =
      1/5000) ∧
    min_clusters_threshold_max_clade tree2 (1/5000) .ninf = [["A", "B"]] ∧
    argmax_clusters tree2 (1/5) .ninf = [["A"], ["B"]] ∧
    argmax_clusters tree2 (1/5) .ninf ≠
      min_clusters_threshold_max_clade tree2 (1/5000) .ninf := by
  have hlen : (thresholdGrid (1/5)).length = 1001 := by
    rw [thresholdGrid_length]
    norm_num [NUM_THRESH]
  have h0 : (0 : ℕ) < (thresholdGrid (1/5)).length := by omega
  have h1i : (1 : ℕ) < (thresholdGrid (1/5)).length := by omega
  have hg0 : (thresholdGrid (1/5)).get ⟨0, h0⟩ = 0 := by
    rw [thresholdGrid_get]
    norm_num
  have hg1 : (thresholdGrid (1/5)).get ⟨1, h1i⟩ = 1/5000 := by
    rw [thresholdGrid_get]
    norm_num [NUM_THRESH]
  have hf0 : nonSingletonCount tree2 ((thresholdGrid (1/5)).get ⟨0, h0⟩) = 0 := by
    rw [hg0]
    exact tree2_count_zero
  have hf1 : nonSingletonCount tree2 ((thresholdGrid (1/5)).get ⟨1, h1i⟩) = 1 := by
    rw [hg1]
    exact tree2_count_win
  have hrun1 : min_clusters_threshold_max_clade tree2 (1/5000) .ninf = [["A", "B"]] := by
    rw [tree2_run, if_neg (by norm_num : ¬ ((1 : ℚ)/5000 < 1/5000))]
  rcases scan_spec (nonSingletonCount tree2) (thresholdGrid (1/5)) (-1, -1, -1) with
    ⟨h1, h2⟩ | ⟨i, hi, h1, h2, h3, h4⟩
  · exfalso
    have h5 := h2 ((thresholdGrid (1/5)).get ⟨0, h0⟩) (List.get_mem _ 0 h0)
    have h6 : ((nonSingletonCount tree2 ((thresholdGrid (1/5)).get ⟨0, h0⟩)) : ℤ) ≤ -1 := h5
    rw [hf0] at h6
    omega
  · have hfi : nonSingletonCount tree2 ((thresholdGrid (1/5)).get ⟨i, hi⟩) = 1 := by
      have hle := h4 1 h1i
      rw [hf1] at hle
      have hge := tree2_count ((thresholdGrid (1/5)).get ⟨i, hi⟩)
      omega
    have hi1 : i = 1 := by
      by_contra hne
      rcases Nat.lt_or_ge i 1 with hlt | hge
      · have hzero : i = 0 := by omega
        subst hzero
        have : nonSingletonCount tree2 ((thresholdGrid (1/5)).get ⟨0, h0⟩) = 1 := hfi
        rw [hf0] at this
        omega
      · have hgt : 1 < i := by omega
        have hlt2 := h3 1 h1i hgt
        rw [hf1, hfi] at hlt2
        omega
    subst hi1
    have hwin : (((thresholdGrid (1/5)).foldl (scanStep (nonSingletonCount tree2))
        (-1, -1, -1)).2.1 = 1/5000) := by
      rw [h1]
      exact hg1
    have hargm : argmax_clusters tree2 (1/5) .ninf = [["A"], ["B"]] := by
      have hdef : argmax_clusters tree2 (1/5) .ninf = min_clusters_threshold_max_clade tree2
          (((thresholdGrid (1/5)).foldl (scanStep (nonSingletonCount tree2))
            (-1, -1, -1)).2.2) .ninf := rfl
      rw [hdef, h1]
      show min_clusters_threshold_max_clade tree2
        (round3 ((thresholdGrid (1/5)).get ⟨1, hi⟩)) ExtQ.ninf = [["A"], ["B"]]
      rw [(rfl : (thresholdGrid (1/5)).get ⟨1, hi⟩ = (thresholdGrid (1/5)).get ⟨1, h1i⟩), hg1,
        round3_win, tree2_run, if_pos (by norm_num : (0 : ℚ) < 1/5000)]
    refine ⟨hwin, hrun1, hargm, ?_⟩
    rw [hargm, hrun1]
    decide

/-- Claim C10 (degenerate search): if every candidate threshold in the grid
yields zero non-singleton clusters, the scan still succeeds and stores the
first candidate — threshold 0 with count 0, accepted because the best count
starts at -1 and the comparison is strict — and `argmax_clusters` returns
the final extraction run at threshold 0 with the caller's real support
threshold. -/
theorem C10_degenerate (tr : PhyloTree) (U : ℚ) (s : ExtQ)
    (h : ∀ t ∈ thresholdGrid U, nonSingletonCount tr t = 0) :
    (thresholdGrid U).foldl (scanStep (nonSingletonCount tr)) (-1, -1, -1) = (0, 0, 0) ∧
    argmax_clusters tr U s = min_clusters_threshold_max_clade tr 0 s := by
  have hlen : (thresholdGrid U).length = 1001 := by
    rw [thresholdGrid_length]
    norm_num [NUM_THRESH]
  have h0 : (0 : ℕ) < (thresholdGrid U).length := by omega
  have hg0 : (thresholdGrid U).get ⟨0, h0⟩ = 0 := by
    rw [thresholdGrid_get]
    norm_num
  have hmem0 : (0 : ℚ) ∈ thresholdGrid U := hg0 ▸ List.get_mem _ 0 h0
  rcases scan_spec (nonSingletonCount tr) (thresholdGrid U) (-1, -1, -1) with
    ⟨h1, h2⟩ | ⟨i, hi, h1, h2, h3, h4⟩
  · exfalso
    have h5 : ((nonSingletonCount tr 0 : ℤ)) ≤ -1 := h2 0 hmem0
    rw [h 0 hmem0] at h5
    omega
  · have hfi : nonSingletonCount tr ((thresholdGrid U).get ⟨i, hi⟩) = 0 :=
      h _ (List.get_mem _ i hi)
    have hi0 : i = 0 := by
      by_contra hne
      have hlt := h3 0 h0 (by omega)
      rw [hfi, h _ (List.get_mem _ 0 h0)] at hlt
      omega
    subst hi0
    have hg0b : (thresholdGrid U).get ⟨0, hi⟩ = 0 := hg0
    constructor
    · rw [h1, hg0b, h 0 hmem0, round3_zero]
      norm_num
    · have hdef : argmax_clusters tr U s = min_clusters_threshold_max_clade tr
          (((thresholdGrid U).foldl (scanStep (nonSingletonCount tr)) (-1, -1, -1)).2.2) s := rfl
      rw [hdef, h1]
      show min_clusters_threshold_max_clade tr
        (round3 ((thresholdGrid U).get ⟨0, hi⟩)) s = min_clusters_threshold_max_clade tr 0 s
      rw [hg0b, round3_zero]

/-- Witness for C10 at the single-leaf tree, whose run yields the single
cluster `[[A]]` (zero non-singleton clusters) for every threshold. -/
theorem C10_witness :
    (∀ t ∈ thresholdGrid 1, nonSingletonCount (.leaf "A" none) t = 0) ∧
    ((thresholdGrid 1).foldl (scanStep (nonSingletonCount (.leaf "A" none))) (-1, -1, -1) =
      (0, 0, 0) ∧
    argmax_clusters (.leaf "A" none) 1 .ninf =
      min_clusters_threshold_max_clade (.leaf "A" none) 0 .ninf) :=
  ⟨fun t _ => rfl, C10_degenerate _ 1 .ninf (fun t _ => rfl)⟩

/-! ### The distance-limit heuristic (claims C7, C8) -/

/-- Claim C7: when the qualifying-bin list `maxarray` holds fewer than two
entries, the distance-limit estimator produces no value — the embedding
renders the source's unguarded out-of-range `maxarray[1]` access (a Python
`IndexError`) as `none` instead of a number. -/
theorem C7_insufficient_signal (hist bins : List ℚ) (meanff : ℚ)
    (hmean : mean (hist.take 5) = some meanff)
    (hfew : (maxarrayOf hist bins meanff).length < 2) :
    get_dist_limit hist bins = none := by
  rw [get_dist_limit, hmean]
  have hnone : (maxarrayOf hist bins meanff).get? 1 = none := by
    rw [List.get?_eq_none]
    omega
  show Option.map round3 ((maxarrayOf hist bins meanff).get? 1) = none
  rw [hnone]
  rfl

/-- Witness for C7 at a flat ten-bin histogram (no bin qualifies). -/
theorem C7_witness :
    mean (([1, 1, 1, 1, 1, 1, 1, 1, 1, 1] : List ℚ).take 5) = some 1 ∧
    (maxarrayOf [1, 1, 1, 1, 1, 1, 1, 1, 1, 1]
      [0, 1, 2, 3, 4, 5, 6, 7, 8, 9, 10] 1).length < 2 ∧
    get_dist_limit [1, 1, 1, 1, 1, 1, 1, 1, 1, 1]
      [0, 1, 2, 3, 4, 5, 6, 7, 8, 9, 10] = none :=
  ⟨by decide, by decide,
    C7_insufficient_signal _ _ 1 (by decide) (by decide)⟩

theorem foldl_min_le (ds : List ℚ) : ∀ a : ℚ, ds.foldl min a ≤ a := by
  induction ds with
  | nil => intro a; exact le_refl a
  | cons x ds ih => intro a; exact le_trans (ih (min a x)) (min_le_left a x)

theorem le_foldl_max (ds : List ℚ) : ∀ a : ℚ, a ≤ ds.foldl max a := by
  induction ds with
  | nil => intro a; exact le_refl a
  | cons x ds ih => intro a; exact le_trans (le_max_left a x) (ih (max a x))

theorem minDist_le_maxDist (dists : List ℚ) : minDist dists ≤ maxDist dists := by
  cases dists with
  | nil => exact le_refl 0
  | cons a as => exact le_trans (foldl_min_le as a) (le_foldl_max as a)

theorem ceilSqrt_pos (n : ℕ) (hn : 1 ≤ n) : 1 ≤ ceilSqrt n := by
  rw [ceilSqrt]
  rcases hfind : (List.range (n + 2)).find? (fun k => decide (n ≤ k * k)) with _ | k
  · simp only [Option.getD_none]
    omega
  · simp only [Option.getD_some]
    have hk := List.find?_some hfind
    have hk2 : n ≤ k * k := of_decide_eq_true hk
    rcases Nat.eq_zero_or_pos k with rfl | hpos
    · simp at hk2
      omega
    · omega

theorem bin_size_pos (n : ℕ) (hn : 1 ≤ n) : 0 < bin_size n := by
  rw [bin_size]
  have := ceilSqrt_pos n hn
  omega

theorem roundHalfEven_le (x : ℚ) : (roundHalfEven x : ℚ) ≤ x + 1/2 := by
  have h1 : ((Int.floor x : ℤ) : ℚ) ≤ x := Int.floor_le x
  rw [roundHalfEven]
  by_cases ha : x - (Int.floor x : ℚ) < 1/2
  · rw [if_pos ha]
    linarith
  · rw [if_neg ha]
    have hge : 1/2 ≤ x - (Int.floor x : ℚ) := not_lt.mp ha
    by_cases hb : (1 : ℚ)/2 < x - (Int.floor x : ℚ)
    · rw [if_pos hb]
      push_cast
      linarith
    · rw [if_neg hb]
      by_cases hc : 2 ∣ Int.floor x
      · rw [if_pos hc]
        linarith
      · rw [if_neg hc]
        push_cast
        linarith

theorem round3_le (q : ℚ) : round3 q ≤ q + 1/2000 := by
  rw [round3]
  have h := roundHalfEven_le (q * 1000)
  have h1000 : (0 : ℚ) < 1000 := by norm_num
  rw [div_le_iff h1000]
  linarith

theorem maxarray_mem (hist bins : List ℚ) (meanff v : ℚ)
    (hv : v ∈ maxarrayOf hist bins meanff) :
    ∃ i, i < hist.length ∧ bins.get? i = some v := by
  rw [maxarrayOf] at hv
  rcases List.mem_filterMap.mp hv with ⟨i, hi, hmap⟩
  have hi2 : i < hist.length := by
    have hmem := List.mem_filter.mp hi
    exact List.mem_range.mp hmem.1
  refine ⟨i, hi2, ?_⟩
  rcases hm : mean ((hist.drop (i - 5)).take 5) with _ | m
  · rw [hm] at hmap
    simp at hmap
  · rw [hm] at hmap
    have hmap2 : (if m < meanff then bins.get? i else none) = some v := hmap
    by_cases hlt : m < meanff
    · rw [if_pos hlt] at hmap2
      exact hmap2
    · rw [if_neg hlt] at hmap2
      simp at hmap2

theorem get_dist_limit_some (hist bins : List ℚ) (d : ℚ)
    (hd : get_dist_limit hist bins = some d) :
    ∃ meanff v, mean (hist.take 5) = some meanff ∧
      (maxarrayOf hist bins meanff).get? 1 = some v ∧ d = round3 v := by
  rcases hm : mean (hist.take 5) with _ | meanff
  · rw [get_dist_limit, hm] at hd
    have hd2 : (none : Option ℚ) = some d := hd
    simp at hd2
  · rw [get_dist_limit, hm] at hd
    have hd2 : Option.map round3 ((maxarrayOf hist bins meanff).get? 1) = some d := hd
    rcases hg : (maxarrayOf hist bins meanff).get? 1 with _ | v
    · rw [hg] at hd2
      simp at hd2
    · rw [hg] at hd2
      refine ⟨meanff, v, ?_, hg, ?_⟩
      · rfl
      · simpa using hd2.symm

theorem gen_hist_edges_le (d0 : ℚ) (ds : List ℚ) :
    ∀ v ∈ (gen_hist (d0 :: ds)).2, v ≤ maxDist (d0 :: ds) := by
  intro v hv
  simp only [gen_hist, List.mem_map, List.mem_range] at hv
  obtain ⟨k, hk, hkv⟩ := hv
  rw [← hkv]
  have hmnmx : minDist (d0 :: ds) ≤ maxDist (d0 :: ds) := minDist_le_maxDist _
  have hB : 1 ≤ bin_size (d0 :: ds).length := by
    have := bin_size_pos (d0 :: ds).length (by simp)
    omega
  have hBpos : 0 < bin_size (d0 :: ds).length := by omega
  have hBQ : (0 : ℚ) < (bin_size (d0 :: ds).length : ℚ) := by exact_mod_cast hBpos
  have hw0 : 0 ≤ (maxDist (d0 :: ds) - minDist (d0 :: ds)) /
      (bin_size (d0 :: ds).length : ℚ) :=
    div_nonneg (by linarith) (le_of_lt hBQ)
  have hkB : (k : ℚ) ≤ (bin_size (d0 :: ds).length : ℚ) := by
    exact_mod_cast (by omega : k ≤ bin_size (d0 :: ds).length)
  have hmul : (k : ℚ) * ((maxDist (d0 :: ds) - minDist (d0 :: ds)) /
      (bin_size (d0 :: ds).length : ℚ)) ≤
      (bin_size (d0 :: ds).length : ℚ) * ((maxDist (d0 :: ds) - minDist (d0 :: ds)) /
        (bin_size (d0 :: ds).length : ℚ)) :=
    mul_le_mul_of_nonneg_right hkB hw0
  have hcancel : (bin_size (d0 :: ds).length : ℚ) *
      ((maxDist (d0 :: ds) - minDist (d0 :: ds)) / (bin_size (d0 :: ds).length : ℚ)) =
      maxDist (d0 :: ds) - minDist (d0 :: ds) :=
    mul_div_cancel₀ _ (ne_of_gt hBQ)
  linarith

/-- Claim C8 (amended): on a non-empty distance collection, whenever the
distance-limit estimator returns a value, that value is the 3-decimal
rounding of a recorded bin edge which itself never exceeds the maximum
observed pairwise distance; the rounding may push the returned value above
the maximum, but by no more than 1/2000 (half of the 3-decimal step). -/
theorem C8_dist_limit_bound (dists : List ℚ) (d : ℚ) (hne : dists ≠ [])
    (hd : get_dist_limit (gen_hist dists).1 (gen_hist dists).2 = some d) :
    ∃ v, v ≤ maxDist dists ∧ d = round3 v ∧ d ≤ maxDist dists + 1/2000 := by
  obtain ⟨d0, ds, rfl⟩ : ∃ d0 ds, dists = d0 :: ds := by
    cases dists with
    | nil => exact absurd rfl hne
    | cons a as => exact ⟨a, as, rfl⟩
  obtain ⟨meanff, v, hm, hg, hdv⟩ := get_dist_limit_some _ _ d hd
  have hvmem : v ∈ maxarrayOf (gen_hist (d0 :: ds)).1 (gen_hist (d0 :: ds)).2 meanff :=
    List.get?_mem hg
  obtain ⟨i, hi, hbin⟩ := maxarray_mem _ _ meanff v hvmem
  have hvedge : v ∈ (gen_hist (d0 :: ds)).2 := List.get?_mem hbin
  have hvle : v ≤ maxDist (d0 :: ds) := gen_hist_edges_le d0 ds v hvedge
  refine ⟨v, hvle, hdv, ?_⟩
  rw [hdv]
  have := round3_le v
  linarith

/-- The concrete distance collection refuting C8 as stated: 72 samples, ten
copies each of `k * 0.000099` for `k = 0..6` plus two copies of the maximum
`0.00099`; its histogram has 10 bins with counts
`[10,10,10,10,10,10,10,0,0,2]`, the qualifying bin edges are `0.000792` and
`0.000891`, and `round(0.000891, 3) = 0.001 > 0.00099`. -/
def dlist : List ℚ :=
  ((List.range 7).map (fun k : ℕ => List.replicate 10 ((k : ℚ) * (99/1000000)))).flatten ++
    List.replicate 2 (99/100000)

/-- Counterexample for C8 as stated: on `dlist` the estimator returns
`0.001`, strictly larger than the maximum observed pairwise distance
`0.00099`. -/
theorem C8_counterexample :
    get_dist_limit (gen_hist dlist).1 (gen_hist dlist).2 = some (1/1000) ∧
    maxDist dlist = 99/100000 ∧
    ¬ ((1 : ℚ)/1000 ≤ 99/100000) :=
  ⟨by decide, by decide, by decide⟩

/-- Witness for the amended C8 at `dlist`. -/
theorem C8_witness :
    dlist ≠ [] ∧
    get_dist_limit (gen_hist dlist).1 (gen_hist dlist).2 = some (1/1000) ∧
    (∃ v, v ≤ maxDist dlist ∧ (1 : ℚ)/1000 = round3 v ∧
      (1 : ℚ)/1000 ≤ maxDist dlist + 1/2000) :=
  ⟨by decide, by decide, C8_dist_limit_bound dlist (1/1000) (by decide) (by decide)⟩
